import Mathlib

/-!
Verification of the NibblePack codec (`src/nibblepacking.rs` of the
`compressed-vec` repository) against its natural-language specification.

The Rust code is shallowly embedded over `Nat`:
* a `u64` is a `Nat` (theorems carry `< 2 ^ 64` bounds where they matter, and
  wrapping operations take an explicit `% 2 ^ 64`);
* a byte buffer (`Vec<u8>` / `&[u8]`) is a `List Nat` of values `< 256`;
* an `f64` is represented by its IEEE-754 bit pattern (a `Nat < 2 ^ 64`);
  the codec only ever moves bit patterns around (`to_bits` / `from_bits`),
  so this representation is exact, including NaN payloads and signed zeros;
* Rust panics (out-of-bounds indexing, failed `assert!`) are an explicit
  `RustRes.panicked` outcome of the decoders.
-/

/-- The single error type of the codec (`NibblePackError` in the source). -/
inductive NibblePackError where
  | InputTooShort
deriving DecidableEq, Repr

/-- Outcome of running a Rust function that may return a `Result` or panic.
`ok` and `err` are the two `Result` constructors; `panicked` models a Rust
panic (out-of-bounds slice indexing / slicing, or a failed `assert!`). -/
inductive RustRes (α : Type) where
  | ok : α → RustRes α
  | err : NibblePackError → RustRes α
  | panicked : RustRes α
deriving DecidableEq, Repr

/-- The `n` low-order bytes of `v`, least significant first. -/
def bytesLE : Nat → Nat → List Nat
  | _, 0 => []
  | v, n + 1 => v % 256 :: bytesLE (v / 256) n

/-- The natural number denoted by a little-endian byte list (each entry is
reduced mod 256, which is the identity on genuine bytes). -/
def natOfBytes : List Nat → Nat
  | [] => 0
  | b :: t => b % 256 + 256 * natOfBytes t

/-- Modelled from the spec: `byteutils::direct_write_uint_le` is not under
`src/`; spec §4.1 states that `write_le(buf, value, n)` appends the low `n`
bytes of `value` in little-endian order. -/
def direct_write_uint_le (out_buffer : List Nat) (value : Nat) (numbytes : Nat) : List Nat :=
  out_buffer ++ bytesLE value numbytes

/-- Modelled from the spec: `byteutils::direct_read_uint_le` is not under
`src/`; spec §4.1 states that `read_le(buf, offset)` reads 8 little-endian
bytes at `offset`.  Bytes beyond the end of the buffer are read as zero
(spec §3: "partial bytes within a group body are zero-extended"; this choice
also matches the repository's own tests, e.g. `unpack8_input_too_short`,
which reach reads with fewer than 8 bytes available and expect an error
return rather than a panic). -/
def direct_read_uint_le (buf : List Nat) (index : Nat) : Nat :=
  natOfBytes ((buf.drop index).take 8)

/-- Fuel-bounded binary length: `bitLenAux f x` is the number of binary
digits of `x`, exact whenever `x < 2 ^ f`. -/
def bitLenAux : Nat → Nat → Nat
  | 0, _ => 0
  | fuel + 1, x => if x = 0 then 0 else bitLenAux fuel (x / 2) + 1

/-- Embedding of `u64::leading_zeros` (for `x < 2 ^ 64`): 64 minus the
binary length.  `u64LeadingZeros 0 = 64`, as in Rust. -/
def u64LeadingZeros (x : Nat) : Nat := 64 - bitLenAux 64 x

/-- Fuel-bounded count of trailing binary zeros: exact for `0 < x < 2 ^ f`,
and equal to `f` at `x = 0`. -/
def tzcAux : Nat → Nat → Nat
  | 0, _ => 0
  | fuel + 1, x => if x % 2 = 1 then 0 else tzcAux fuel (x / 2) + 1

/-- Embedding of `u64::trailing_zeros` (for `x < 2 ^ 64`).
`u64TrailingZeros 0 = 64`, as in Rust. -/
def u64TrailingZeros (x : Nat) : Nat := tzcAux 64 x

/-- Fuel-bounded popcount. -/
def countOnesAux : Nat → Nat → Nat
  | 0, _ => 0
  | fuel + 1, x => x % 2 + countOnesAux fuel (x / 2)

/-- Embedding of `u8::count_ones` (the nonzero mask byte is a `u8`). -/
def countOnes8 (x : Nat) : Nat := countOnesAux 8 x

/-- The nonzero bitmask computed at the top of `nibble_pack8`:
bit `i` is set iff `inputs[i] != 0` (`i` ranges over `0..8`). -/
def nonzeroMask (inputs : List Nat) : Nat :=
  (List.range 8).foldl (fun mask i => if inputs.getD i 0 ≠ 0 then mask ||| (1 <<< i) else mask) 0

/-- Minimum of `leading_zeros` over the 8 inputs (`.map(..).min().unwrap()`
in the source; every element is at most 64, so folding `min` from 64 agrees
with the minimum of the nonempty 8-element list). -/
def minLeadingZeros (inputs : List Nat) : Nat :=
  (inputs.map u64LeadingZeros).foldl Nat.min 64

/-- Minimum of `trailing_zeros` over the 8 inputs. -/
def minTrailingZeros (inputs : List Nat) : Nat :=
  (inputs.map u64TrailingZeros).foldl Nat.min 64

/-- The `trailing_nibbles` local of `nibble_pack8`. -/
def trailingNibbles (inputs : List Nat) : Nat := minTrailingZeros inputs / 4

/-- The `num_nibbles` local of `nibble_pack8`. -/
def numNibbles (inputs : List Nat) : Nat :=
  16 - minLeadingZeros inputs / 4 - trailingNibbles inputs

/-- The `nibble_word` header byte of `nibble_pack8`:
`((num_nibbles - 1) << 4) | trailing_nibbles`, cast `as u8`. -/
def nibbleWord (inputs : List Nat) : Nat :=
  (((numNibbles inputs - 1) <<< 4) ||| trailingNibbles inputs) % 256

/-- Embedding of `pack_to_even_nibbles`: for each nonzero input, shift right
by the trailing-zero nibbles and write exactly `num_nibbles / 2` bytes.
(The source `assert!(num_nibbles % 2 == 0)` holds at the only call site;
theorems about this path carry evenness as a hypothesis.) -/
def pack_to_even_nibbles (inputs out_buffer : List Nat)
    (num_nibbles trailing_zero_nibbles : Nat) : List Nat :=
  inputs.foldl
    (fun buf x =>
      if x ≠ 0 then direct_write_uint_le buf (x >>> (trailing_zero_nibbles * 4)) (num_nibbles / 2)
      else buf)
    out_buffer

/-- The loop body of `pack_universal`, processing the inputs in order while
maintaining `out_word` (a `u64`, hence the `% 2 ^ 64` on the wrapping left
shift), `bit_cursor`, and the output buffer. -/
def packUniversalLoop (num_bits trailing_shift : Nat) :
    List Nat → Nat → Nat → List Nat → Nat × Nat × List Nat
  | [], out_word, bit_cursor, buf => (out_word, bit_cursor, buf)
  | x :: xs, out_word, bit_cursor, buf =>
    if x ≠ 0 then
      if 64 - bit_cursor ≤ num_bits then
        packUniversalLoop num_bits trailing_shift xs
          (if 64 - bit_cursor < num_bits then (x >>> trailing_shift) >>> (64 - bit_cursor) else 0)
          ((bit_cursor + num_bits) % 64)
          (direct_write_uint_le buf
            (out_word ||| ((x >>> trailing_shift) <<< bit_cursor) % 2 ^ 64) 8)
      else
        packUniversalLoop num_bits trailing_shift xs
          (out_word ||| ((x >>> trailing_shift) <<< bit_cursor) % 2 ^ 64)
          ((bit_cursor + num_bits) % 64) buf
    else packUniversalLoop num_bits trailing_shift xs out_word bit_cursor buf

/-- Embedding of `pack_universal`: run the loop, then flush the remainder
word (`ceil(bit_cursor / 8)` bytes) if any bits are pending. -/
def pack_universal (inputs out_buffer : List Nat)
    (num_nibbles trailing_zero_nibbles : Nat) : List Nat :=
  match packUniversalLoop (num_nibbles * 4) (trailing_zero_nibbles * 4) inputs 0 0 out_buffer with
  | (out_word, bit_cursor, buf) =>
    if bit_cursor > 0 then direct_write_uint_le buf out_word ((bit_cursor + 7) / 8) else buf

/-- Embedding of `nibble_pack8`: push the nonzero mask; if it is nonzero,
push the width byte and pack the body through the even or universal path. -/
def nibble_pack8 (inputs out_buffer : List Nat) : List Nat :=
  if nonzeroMask inputs ≠ 0 then
    if numNibbles inputs % 2 = 0 then
      pack_to_even_nibbles inputs (out_buffer ++ [nonzeroMask inputs, nibbleWord inputs])
        (numNibbles inputs) (trailingNibbles inputs)
    else
      pack_universal inputs (out_buffer ++ [nonzeroMask inputs, nibbleWord inputs])
        (numNibbles inputs) (trailingNibbles inputs)
  else out_buffer ++ [nonzeroMask inputs]

/-- Embedding of `pack_u64`: consume the stream in groups of 8, zero-padding
a final partial group (the source accumulates into an 8-slot `in_buffer` and
flushes it through `nibble_pack8`). -/
def pack_u64 : List Nat → List Nat → List Nat
  | [], out_buffer => out_buffer
  | x0 :: x1 :: x2 :: x3 :: x4 :: x5 :: x6 :: x7 :: rest, out_buffer =>
    pack_u64 rest (nibble_pack8 [x0, x1, x2, x3, x4, x5, x6, x7] out_buffer)
  | xs, out_buffer => nibble_pack8 (xs ++ List.replicate (8 - xs.length) 0) out_buffer

/-- The delta stream computed by `pack_u64_delta`'s iterator: starting from
`last`, each element yields `n.saturating_sub(last)` (truncated subtraction
on `Nat`) and updates `last` to `n`. -/
def deltasFrom : Nat → List Nat → List Nat
  | _, [] => []
  | last, n :: rest => (n - last) :: deltasFrom n rest

/-- Embedding of `pack_u64_delta`. -/
def pack_u64_delta (inputs out_buffer : List Nat) : List Nat :=
  pack_u64 (deltasFrom 0 inputs) out_buffer

/-- The XOR-delta stream computed by `pack_f64_xor`'s closure: each value
yields `last ^ bits(f)` and updates `last` to `bits(f)`. -/
def xorDeltasFrom : Nat → List Nat → List Nat
  | _, [] => []
  | last, f :: rest => (last ^^^ f) :: xorDeltasFrom f rest

/-- Embedding of `pack_f64_xor` (floats given by their bit patterns): an
empty stream fails with `InputTooShort`; otherwise the first value's 64 bits
are written little-endian and the XOR deltas go through `pack_u64`. -/
def pack_f64_xor (stream out_buffer : List Nat) : Except NibblePackError (List Nat) :=
  match stream with
  | [] => .error .InputTooShort
  | num :: rest =>
    .ok (pack_u64 (xorDeltasFrom num rest) (direct_write_uint_le out_buffer num 8))

/-- The semantic content of the `Sink` trait: `process` and `process8`.
(`reserve` only pre-allocates capacity and has no observable effect in the
embedding.) -/
structure SinkOps (σ : Type) where
  process : σ → Nat → σ
  process8 : σ → Nat → σ

/-- Embedding of `LongSink`: a bare `Vec<u64>`. -/
structure LongSink where
  vec : List Nat
deriving DecidableEq, Repr

/-- `LongSink`'s `Sink` impl: `process` appends one value (the source's
`unchecked_write_u64_u64_le` push), `process8` appends eight copies
(`write8_u64_le`). -/
def longSinkOps : SinkOps LongSink where
  process s data := { vec := s.vec ++ [data] }
  process8 s data := { vec := s.vec ++ List.replicate 8 data }

/-- Embedding of `DeltaSink`: accumulator plus inner `LongSink`. -/
structure DeltaSink where
  acc : Nat
  sink : LongSink
deriving DecidableEq, Repr

/-- `DeltaSink`'s `Sink` impl: `acc += data` is `u64` (wrapping) addition,
then the accumulator is forwarded to the inner sink. -/
def deltaSinkOps : SinkOps DeltaSink where
  process s data :=
    { acc := (s.acc + data) % 2 ^ 64,
      sink := { vec := s.sink.vec ++ [(s.acc + data) % 2 ^ 64] } }
  process8 s data :=
    { acc := (s.acc + data) % 2 ^ 64,
      sink := { vec := s.sink.vec ++ List.replicate 8 ((s.acc + data) % 2 ^ 64) } }

/-- Embedding of `DoubleXorSink`; `vec` holds the bit patterns of the
reconstructed `f64` values (`f64::from_bits` is the identity on patterns). -/
structure DoubleXorSink where
  last : Nat
  vec : List Nat
deriving DecidableEq, Repr

/-- `DoubleXorSink`'s `Sink` impl: XOR the incoming delta with `last`. -/
def doubleXorSinkOps : SinkOps DoubleXorSink where
  process s data := { last := s.last ^^^ data, vec := s.vec ++ [s.last ^^^ data] }
  process8 s data := { last := s.last ^^^ data, vec := s.vec ++ List.replicate 8 (s.last ^^^ data) }

/-- Embedding of `DoubleXorSink::reset`. -/
def DoubleXorSink.reset (_s : DoubleXorSink) (init_value : Nat) : DoubleXorSink :=
  { last := init_value, vec := [init_value] }

/-- Embedding of `DeltaDiffPackSink`. -/
structure DeltaDiffPackSink where
  value_dropped : Bool
  i : Nat
  last_hist_deltas : List Nat
  pack_array : List Nat
  out_vec : List Nat
deriving DecidableEq, Repr

/-- Embedding of `DeltaDiffPackSink::new`. -/
def DeltaDiffPackSink.new (num_buckets : Nat) (out_vec : List Nat) : DeltaDiffPackSink :=
  { value_dropped := false, i := 0, last_hist_deltas := List.replicate num_buckets 0,
    pack_array := List.replicate 8 0, out_vec := out_vec }

/-- Embedding of `DeltaDiffPackSink`'s `process`: while `i` is below the
bucket count, record the diff against `last_hist_deltas[i]` (or the raw
value on a drop), update the state, and flush `pack_array` through
`nibble_pack8` whenever 8 slots fill; once `i` reaches the bucket count the
call does nothing. -/
def DeltaDiffPackSink.process (s : DeltaDiffPackSink) (data : Nat) : DeltaDiffPackSink :=
  if s.i < s.last_hist_deltas.length then
    let last_value := s.last_hist_deltas.getD s.i 0
    let pa := s.pack_array.set (s.i % 8) (if data < last_value then data else data - last_value)
    { value_dropped := if data < s.last_hist_deltas.getD s.i 0 then true else s.value_dropped,
      i := s.i + 1,
      last_hist_deltas := s.last_hist_deltas.set s.i data,
      pack_array := pa,
      out_vec := if (s.i + 1) % 8 = 0 then nibble_pack8 pa s.out_vec else s.out_vec }
  else s

/-- Embedding of `DeltaDiffPackSink`'s `process8`: eight scalar calls. -/
def DeltaDiffPackSink.process8 (s : DeltaDiffPackSink) (data : Nat) : DeltaDiffPackSink :=
  (((((((s.process data).process data).process data).process data).process
      data).process data).process data).process data

/-- `SinkOps` for `DeltaDiffPackSink`. -/
def deltaDiffPackSinkOps : SinkOps DeltaDiffPackSink where
  process := DeltaDiffPackSink.process
  process8 := DeltaDiffPackSink.process8

/-- The `for bit in 0..8` loop of `nibble_unpack8`.  `mval` is the decoder's
`mask` local; the wrapping `u64` left shifts carry explicit `% 2 ^ 64`.
Returns the final sink state, or `InputTooShort` exactly where the source
returns it. -/
def unpack8Loop {σ : Type} (ops : SinkOps σ) (inbuf : List Nat)
    (nonzero_mask num_bits trailing_zeros total_bytes mval : Nat) :
    List Nat → Nat → Nat → Nat → σ → Except NibblePackError σ
  | [], _, _, _, st => .ok st
  | bit :: bits, in_word, buf_index, bit_cursor, st =>
    if nonzero_mask &&& (1 <<< bit) ≠ 0 then
      if 64 - bit_cursor ≤ num_bits ∧ buf_index < total_bytes then
        if buf_index < inbuf.length then
          unpack8Loop ops inbuf nonzero_mask num_bits trailing_zeros total_bytes mval bits
            (direct_read_uint_le inbuf buf_index) (buf_index + 8)
            ((bit_cursor + num_bits) % 64)
            (ops.process st
              (((if 64 - bit_cursor < num_bits then
                    ((in_word >>> bit_cursor) &&& mval) |||
                      (((direct_read_uint_le inbuf buf_index) <<< (64 - bit_cursor)) % 2 ^ 64 &&&
                        mval)
                  else (in_word >>> bit_cursor) &&& mval) <<< trailing_zeros) % 2 ^ 64))
        else .error .InputTooShort
      else
        unpack8Loop ops inbuf nonzero_mask num_bits trailing_zeros total_bytes mval bits
          in_word buf_index ((bit_cursor + num_bits) % 64)
          (ops.process st ((((in_word >>> bit_cursor) &&& mval) <<< trailing_zeros) % 2 ^ 64))
    else
      unpack8Loop ops inbuf nonzero_mask num_bits trailing_zeros total_bytes mval bits
        in_word buf_index bit_cursor (ops.process st 0)

/-- Embedding of `nibble_unpack8`.  The source indexes `inbuf[0]` and
`inbuf[1]` without a length check and finally slices
`&inbuf[total_bytes..]`; each of those panics when out of bounds, which the
embedding reports as `panicked`. -/
def nibble_unpack8 {σ : Type} (ops : SinkOps σ) (inbuf : List Nat) (st : σ) :
    RustRes (σ × List Nat) :=
  match inbuf with
  | [] => .panicked
  | b0 :: rest =>
    if b0 = 0 then .ok (ops.process8 st 0, rest)
    else
      match rest with
      | [] => .panicked
      | b1 :: _ =>
        let num_bits := ((b1 >>> 4) + 1) * 4
        let trailing_zeros := (b1 &&& 15) * 4
        let total_bytes := 2 + (num_bits * countOnes8 b0 + 7) / 8
        let mval := if num_bits ≥ 64 then 2 ^ 64 - 1 else (1 <<< num_bits) - 1
        match unpack8Loop ops inbuf b0 num_bits trailing_zeros total_bytes mval
            (List.range 8) (direct_read_uint_le inbuf 2) 10 0 st with
        | .error e => .err e
        | .ok st2 =>
          if total_bytes ≤ inbuf.length then .ok (st2, inbuf.drop total_bytes) else .panicked

/-- The `while values_left > 0` loop of `unpack`, unrolled over the number
of groups `ceil(num_values / 8)`. -/
def unpackGroups {σ : Type} (ops : SinkOps σ) : Nat → List Nat → σ → RustRes (σ × List Nat)
  | 0, inbuf, st => .ok (st, inbuf)
  | k + 1, inbuf, st =>
    match nibble_unpack8 ops inbuf st with
    | .ok (st2, inbuf2) => unpackGroups ops k inbuf2 st2
    | .err e => .err e
    | .panicked => .panicked

/-- Embedding of `unpack`. -/
def unpack {σ : Type} (ops : SinkOps σ) (encoded : List Nat) (st : σ) (num_values : Nat) :
    RustRes (σ × List Nat) :=
  unpackGroups ops ((num_values + 7) / 8) encoded st

/-- Embedding of `unpack_f64_xor`: length check, `assert!(num_values >= 1)`
(a panic when violated), reset the sink with the 8-byte seed, then `unpack`
the remaining `num_values - 1` values. -/
def unpack_f64_xor (encoded : List Nat) (sink : DoubleXorSink) (num_values : Nat) :
    RustRes (DoubleXorSink × List Nat) :=
  if encoded.length < 8 then .err .InputTooShort
  else if num_values < 1 then .panicked
  else
    unpack doubleXorSinkOps (encoded.drop 8) (sink.reset (direct_read_uint_le encoded 0))
      (num_values - 1)

/-! ### Little-endian byte lists -/

theorem pow8succ (n : Nat) : (2 : Nat) ^ (8 * (n + 1)) = 256 * 2 ^ (8 * n) := by
  rw [show 8 * (n + 1) = 8 + 8 * n by ring, Nat.pow_add]

theorem bytesLE_length (v n : Nat) : (bytesLE v n).length = n := by
  induction n generalizing v with
  | zero => rfl
  | succ n ih => simp [bytesLE, ih]

theorem bytesLE_mem_lt (v n : Nat) : ∀ b ∈ bytesLE v n, b < 256 := by
  induction n generalizing v with
  | zero => intro b hb; simp [bytesLE] at hb
  | succ n ih =>
    intro b hb
    simp only [bytesLE, List.mem_cons] at hb
    rcases hb with h | h
    · omega
    · exact ih _ b h

theorem bytesLE_congr {v w : Nat} (n : Nat) (h : v % 2 ^ (8 * n) = w % 2 ^ (8 * n)) :
    bytesLE v n = bytesLE w n := by
  induction n generalizing v w with
  | zero => rfl
  | succ n ih =>
    have h1 : v % 256 = w % 256 := by
      have hv := Nat.mod_mul_right_mod v 256 (2 ^ (8 * n))
      have hw := Nat.mod_mul_right_mod w 256 (2 ^ (8 * n))
      rw [← pow8succ n] at hv hw
      rw [← hv, ← hw, h]
    have h2 : v / 256 % 2 ^ (8 * n) = w / 256 % 2 ^ (8 * n) := by
      have hv := Nat.mod_mul_right_div_self v 256 (2 ^ (8 * n))
      have hw := Nat.mod_mul_right_div_self w 256 (2 ^ (8 * n))
      rw [← pow8succ n] at hv hw
      rw [← hv, ← hw, h]
    simp only [bytesLE, h1, ih h2]

theorem bytesLE_split (v a b : Nat) :
    bytesLE v (a + b) = bytesLE v a ++ bytesLE (v / 2 ^ (8 * a)) b := by
  induction a generalizing v with
  | zero => simp [bytesLE]
  | succ a ih =>
    rw [show a + 1 + b = (a + b) + 1 by omega]
    simp only [bytesLE, List.cons_append, ih (v / 256)]
    have hd : v / 256 / 2 ^ (8 * a) = v / 2 ^ (8 * (a + 1)) := by
      rw [Nat.div_div_eq_div_mul, pow8succ]
    rw [hd]

theorem natOfBytes_append (l1 l2 : List Nat) :
    natOfBytes (l1 ++ l2) = natOfBytes l1 + 2 ^ (8 * l1.length) * natOfBytes l2 := by
  induction l1 with
  | nil => simp [natOfBytes]
  | cons b t ih =>
    show natOfBytes (b :: (t ++ l2)) = _
    rw [natOfBytes, ih, natOfBytes, List.length_cons, pow8succ]
    ring

theorem natOfBytes_bytesLE (v n : Nat) : natOfBytes (bytesLE v n) = v % 2 ^ (8 * n) := by
  induction n generalizing v with
  | zero => simp [bytesLE, natOfBytes, Nat.mod_one]
  | succ n ih =>
    simp only [bytesLE, natOfBytes, ih]
    rw [pow8succ, Nat.mod_mul, Nat.mod_mod_of_dvd v dvd_rfl]

theorem natOfBytes_lt (l : List Nat) : natOfBytes l < 2 ^ (8 * l.length) := by
  induction l with
  | nil => simp [natOfBytes]
  | cons b t ih =>
    rw [natOfBytes, List.length_cons, pow8succ]
    have hb : b % 256 < 256 := Nat.mod_lt _ (by norm_num)
    calc b % 256 + 256 * natOfBytes t < 256 + 256 * natOfBytes t := by omega
    _ = 256 * (natOfBytes t + 1) := by ring
    _ ≤ 256 * 2 ^ (8 * t.length) := Nat.mul_le_mul_left _ (by omega)

theorem natOfBytes_drop (l : List Nat) (i : Nat) :
    natOfBytes (l.drop i) = natOfBytes l / 2 ^ (8 * i) := by
  induction i generalizing l with
  | zero => simp
  | succ i ih =>
    cases l with
    | nil => simp [natOfBytes]
    | cons b t =>
      rw [List.drop_succ_cons, ih t, pow8succ, ← Nat.div_div_eq_div_mul]
      have h2 : natOfBytes (b :: t) / 256 = natOfBytes t := by
        rw [natOfBytes, Nat.add_mul_div_left _ _ (by norm_num : (0:Nat) < 256)]
        have hz : b % 256 / 256 = 0 := Nat.div_eq_of_lt (Nat.mod_lt _ (by norm_num))
        omega
      rw [h2]

theorem natOfBytes_take (l : List Nat) (k : Nat) :
    natOfBytes (l.take k) = natOfBytes l % 2 ^ (8 * k) := by
  induction k generalizing l with
  | zero => simp [natOfBytes, Nat.mod_one]
  | succ k ih =>
    cases l with
    | nil => simp [natOfBytes]
    | cons b t =>
      rw [List.take_succ_cons, natOfBytes, ih t, pow8succ, Nat.mod_mul]
      have h1 : natOfBytes (b :: t) % 256 = b % 256 := by
        rw [natOfBytes, Nat.add_mul_mod_self_left, Nat.mod_mod_of_dvd b dvd_rfl]
      have h2 : natOfBytes (b :: t) / 256 = natOfBytes t := by
        rw [natOfBytes, Nat.add_mul_div_left _ _ (by norm_num : (0:Nat) < 256)]
        have hz : b % 256 / 256 = 0 := Nat.div_eq_of_lt (Nat.mod_lt _ (by norm_num))
        omega
      rw [h1, h2]

theorem direct_read_eq (l : List Nat) (i : Nat) :
    direct_read_uint_le l i = natOfBytes l / 2 ^ (8 * i) % 2 ^ 64 := by
  rw [direct_read_uint_le, natOfBytes_take, natOfBytes_drop]

/-! ### Bit-adjacent packing of equal-width fields -/

/-- The group body as one natural number: field `i` of width `w` bits sits at
bit offset `w * i`. -/
def packNat (w : Nat) : List Nat → Nat
  | [] => 0
  | v :: vs => v + 2 ^ w * packNat w vs

theorem packNat_lt {w : Nat} {vs : List Nat} (h : ∀ v ∈ vs, v < 2 ^ w) :
    packNat w vs < 2 ^ (w * vs.length) := by
  induction vs with
  | nil => simp [packNat]
  | cons v vs ih =>
    rw [packNat, List.length_cons]
    have hv : v < 2 ^ w := h v (by simp)
    have hvs : packNat w vs < 2 ^ (w * vs.length) := ih (fun x hx => h x (by simp [hx]))
    have hpow : (2 : Nat) ^ (w * (vs.length + 1)) = 2 ^ w * 2 ^ (w * vs.length) := by
      rw [← Nat.pow_add]; ring_nf
    calc v + 2 ^ w * packNat w vs < 2 ^ w + 2 ^ w * packNat w vs := by omega
    _ = 2 ^ w * (packNat w vs + 1) := by ring
    _ ≤ 2 ^ w * 2 ^ (w * vs.length) := Nat.mul_le_mul_left _ (by omega)
    _ = 2 ^ (w * (vs.length + 1)) := hpow.symm

theorem packNat_extract {w : Nat} {vs : List Nat} (h : ∀ v ∈ vs, v < 2 ^ w) (c : Nat) :
    packNat w vs / 2 ^ (w * c) % 2 ^ w = vs.getD c 0 := by
  induction vs generalizing c with
  | nil => simp [packNat]
  | cons v vs ih =>
    have hv : v < 2 ^ w := h v (by simp)
    cases c with
    | zero =>
      simp only [packNat, Nat.mul_zero, Nat.pow_zero, Nat.div_one, List.getD_cons_zero]
      rw [Nat.mul_comm, Nat.add_mul_mod_self_right, Nat.mod_eq_of_lt hv]
    | succ c =>
      simp only [packNat, List.getD_cons_succ]
      rw [← ih (fun x hx => h x (by simp [hx])) c]
      have hsplit : (2 : Nat) ^ (w * (c + 1)) = 2 ^ w * 2 ^ (w * c) := by
        rw [← Nat.pow_add]; ring_nf
      have hstep : (v + 2 ^ w * packNat w vs) / 2 ^ w = packNat w vs := by
        rw [Nat.add_mul_div_left _ _ (Nat.pos_pow_of_pos w (by norm_num)), Nat.div_eq_of_lt hv]
        omega
      rw [hsplit, ← Nat.div_div_eq_div_mul, hstep]

/-! ### Bit-window arithmetic -/

theorem lor_mod_two_pow (a b n : Nat) : (a ||| b) % 2 ^ n = a % 2 ^ n ||| b % 2 ^ n := by
  apply Nat.eq_of_testBit_eq
  intro i
  simp only [Nat.testBit_mod_two_pow, Nat.testBit_lor]
  by_cases h : i < n <;> simp [h]

theorem lor_eq_add_of_lt {a k : Nat} (b : Nat) (h : a < 2 ^ k) :
    a ||| 2 ^ k * b = a + 2 ^ k * b := by
  apply Nat.eq_of_testBit_eq
  intro j
  rw [Nat.add_comm a, Nat.testBit_mul_pow_two_add b h j, Nat.testBit_lor]
  by_cases hj : j < k
  · have hb : (2 ^ k * b).testBit j = false := by
      rw [Nat.mul_comm, ← Nat.shiftLeft_eq, Nat.testBit_shiftLeft]
      simp [Nat.not_le.mpr hj]
    simp [hj, hb]
  · have ha : a.testBit j = false := by
      apply Nat.testBit_eq_false_of_lt
      exact lt_of_lt_of_le h (Nat.pow_le_pow_right (by norm_num) (by omega))
    have hb : (2 ^ k * b).testBit j = b.testBit (j - k) := by
      rw [Nat.mul_comm, ← Nat.shiftLeft_eq, Nat.testBit_shiftLeft]
      simp [Nat.le_of_not_lt (by omega : ¬ j < k)]
    simp [hj, ha, hb]

theorem window_extract_low (x bc w : Nat) (h : bc + w ≤ 64) :
    ((x % 2 ^ 64) >>> bc) &&& (2 ^ w - 1) = x / 2 ^ bc % 2 ^ w := by
  rw [Nat.and_pow_two_sub_one_eq_mod, Nat.shiftRight_eq_div_pow]
  rw [show (2 : Nat) ^ 64 = 2 ^ bc * 2 ^ (64 - bc) by rw [← Nat.pow_add]; congr 1; omega]
  rw [Nat.mod_mul_right_div_self]
  exact Nat.mod_mod_of_dvd _ (Nat.pow_dvd_pow 2 (by omega))

theorem window_extract_high (x q bc w : Nat) (hbc : bc < 64) (hlow : 64 - bc < w)
    (hw : w ≤ 64) :
    ((((x >>> (64 * q)) % 2 ^ 64) >>> bc) &&& (2 ^ w - 1)) |||
      ((((x >>> (64 * (q + 1))) % 2 ^ 64) <<< (64 - bc)) % 2 ^ 64 &&& (2 ^ w - 1)) =
    x / 2 ^ (64 * q + bc) % 2 ^ w := by
  set k := 64 - bc with hk
  set Y := x / 2 ^ (64 * q + bc) with hY
  have hkpos : 0 < k := by omega
  have hpart1 : (((x >>> (64 * q)) % 2 ^ 64) >>> bc) &&& (2 ^ w - 1) = Y % 2 ^ k := by
    rw [Nat.and_pow_two_sub_one_eq_mod, Nat.shiftRight_eq_div_pow, Nat.shiftRight_eq_div_pow]
    rw [show (2 : Nat) ^ 64 = 2 ^ bc * 2 ^ k by rw [← Nat.pow_add]; congr 1; omega]
    rw [Nat.mod_mul_right_div_self, Nat.div_div_eq_div_mul, ← Nat.pow_add, hY]
    exact Nat.mod_eq_of_lt
      (lt_of_lt_of_le (Nat.mod_lt _ (Nat.pos_pow_of_pos k (by norm_num)))
        (Nat.pow_le_pow_right (by norm_num) (by omega)))
  have hA : x >>> (64 * (q + 1)) = Y / 2 ^ k := by
    rw [Nat.shiftRight_eq_div_pow, hY, Nat.div_div_eq_div_mul, ← Nat.pow_add]
    congr 2
    omega
  have hpart2 : (((x >>> (64 * (q + 1))) % 2 ^ 64) <<< k) % 2 ^ 64 &&& (2 ^ w - 1) =
      2 ^ k * (Y / 2 ^ k % 2 ^ (w - k)) := by
    rw [hA, Nat.and_pow_two_sub_one_eq_mod, Nat.shiftLeft_eq]
    rw [Nat.mod_mod_of_dvd _ (Nat.pow_dvd_pow 2 hw)]
    rw [show (2 : Nat) ^ w = 2 ^ (w - k) * 2 ^ k by rw [← Nat.pow_add]; congr 1; omega]
    rw [Nat.mul_mod_mul_right]
    rw [Nat.mod_mod_of_dvd _ (Nat.pow_dvd_pow 2 (by omega : w - k ≤ 64))]
    ring
  rw [hpart1, hpart2, lor_eq_add_of_lt _ (Nat.mod_lt _ (Nat.pos_pow_of_pos k (by norm_num)))]
  rw [show (2 : Nat) ^ w = 2 ^ k * 2 ^ (w - k) by rw [← Nat.pow_add]; congr 1; omega]
  rw [Nat.mod_mul]

theorem extract_congr (P K B a w : Nat) (h : a + w ≤ 8 * B) :
    (P + 2 ^ (8 * B) * K) / 2 ^ a % 2 ^ w = P / 2 ^ a % 2 ^ w := by
  have hd : (P + 2 ^ (8 * B) * K) / 2 ^ a = P / 2 ^ a + 2 ^ (8 * B - a) * K := by
    rw [show (2 : Nat) ^ (8 * B) = 2 ^ a * 2 ^ (8 * B - a) by rw [← Nat.pow_add]; congr 1; omega]
    rw [Nat.mul_assoc, Nat.add_mul_div_left _ _ (Nat.pos_pow_of_pos a (by norm_num))]
  rw [hd]
  rw [show (2 : Nat) ^ (8 * B - a) = 2 ^ w * 2 ^ (8 * B - a - w) by
    rw [← Nat.pow_add]; congr 1; omega]
  rw [Nat.mul_assoc, Nat.add_mul_mod_self_left]

theorem mval_eq (num_bits : Nat) (h : num_bits ≤ 64) :
    (if num_bits ≥ 64 then 2 ^ 64 - 1 else (1 <<< num_bits) - 1) = 2 ^ num_bits - 1 := by
  by_cases h64 : num_bits ≥ 64
  · have : num_bits = 64 := by omega
    simp [this]
  · simp [h64, Nat.one_shiftLeft]

/-! ### Leading/trailing zeros, popcount, and the nonzero mask -/

theorem bitLenAux_le (f : Nat) : ∀ x, bitLenAux f x ≤ f := by
  induction f with
  | zero => intro x; simp [bitLenAux]
  | succ f ih =>
    intro x
    rw [bitLenAux]
    by_cases hx : x = 0
    · simp [hx]
    · simp only [hx, if_false]
      exact Nat.succ_le_succ (ih (x / 2))

theorem lt_two_pow_bitLenAux (f : Nat) : ∀ x, x < 2 ^ f → x < 2 ^ bitLenAux f x := by
  induction f with
  | zero => intro x h; simpa [bitLenAux] using h
  | succ f ih =>
    intro x h
    rw [bitLenAux]
    by_cases hx : x = 0
    · simp [hx]
    · simp only [hx, if_false]
      have hdiv : x / 2 < 2 ^ f := by
        rw [Nat.div_lt_iff_lt_mul (by norm_num)]
        calc x < 2 ^ (f + 1) := h
        _ = 2 ^ f * 2 := by rw [Nat.pow_succ]
      have := ih (x / 2) hdiv
      have hp : (2 : Nat) ^ (bitLenAux f (x / 2) + 1) = 2 * 2 ^ bitLenAux f (x / 2) := by
        rw [Nat.pow_succ]; ring
      omega

theorem bitLenAux_pos (f x : Nat) (hx : x ≠ 0) (h : x < 2 ^ f) : 0 < bitLenAux f x := by
  cases f with
  | zero => simp at h; omega
  | succ f => rw [bitLenAux]; simp [hx]

theorem tzcAux_le (f : Nat) : ∀ x, tzcAux f x ≤ f := by
  induction f with
  | zero => intro x; simp [tzcAux]
  | succ f ih =>
    intro x
    rw [tzcAux]
    by_cases hx : x % 2 = 1
    · simp [hx]
    · simp only [hx, if_false]
      exact Nat.succ_le_succ (ih (x / 2))

theorem two_pow_tzcAux_dvd (f : Nat) : ∀ x, 2 ^ tzcAux f x ∣ x := by
  induction f with
  | zero => intro x; simp [tzcAux]
  | succ f ih =>
    intro x
    rw [tzcAux]
    by_cases hx : x % 2 = 1
    · simp [hx]
    · simp only [hx, if_false]
      obtain ⟨c, hc⟩ := ih (x / 2)
      refine ⟨c, ?_⟩
      calc x = 2 * (x / 2) := by omega
      _ = 2 * (2 ^ tzcAux f (x / 2) * c) := by rw [← hc]
      _ = 2 ^ (tzcAux f (x / 2) + 1) * c := by rw [Nat.pow_succ]; ring

theorem tzcAux_lt_bitLenAux (f : Nat) :
    ∀ x, x ≠ 0 → x < 2 ^ f → tzcAux f x < bitLenAux f x := by
  induction f with
  | zero => intro x hx h; simp at h; omega
  | succ f ih =>
    intro x hx h
    rw [tzcAux, bitLenAux]
    simp only [hx, if_false]
    by_cases hodd : x % 2 = 1
    · simp [hodd]
    · simp only [hodd, if_false]
      have hx2 : x / 2 ≠ 0 := by omega
      have hdiv : x / 2 < 2 ^ f := by
        rw [Nat.div_lt_iff_lt_mul (by norm_num)]
        calc x < 2 ^ (f + 1) := h
        _ = 2 ^ f * 2 := by rw [Nat.pow_succ]
      exact Nat.succ_lt_succ (ih (x / 2) hx2 hdiv)

theorem countOnesAux_zero (f : Nat) : countOnesAux f 0 = 0 := by
  induction f with
  | zero => rfl
  | succ f ih => simp [countOnesAux, ih]

/-- Recursive form of the nonzero mask, used to reason about the
`List.range 8` fold in `nonzeroMask`. -/
def maskRec : List Nat → Nat
  | [] => 0
  | x :: xs => (if x ≠ 0 then 1 else 0) + 2 * maskRec xs

theorem maskRec_lt (xs : List Nat) : maskRec xs < 2 ^ xs.length := by
  induction xs with
  | nil => simp [maskRec]
  | cons x xs ih =>
    rw [maskRec, List.length_cons, Nat.pow_succ]
    by_cases hx : x ≠ 0
    · rw [if_pos hx]; omega
    · rw [if_neg hx]; omega

theorem maskRec_testBit (xs : List Nat) (j : Nat) :
    (maskRec xs).testBit j = decide (xs.getD j 0 ≠ 0) := by
  induction xs generalizing j with
  | nil => simp [maskRec]
  | cons x xs ih =>
    cases j with
    | zero =>
      rw [maskRec, Nat.testBit_zero, List.getD_cons_zero]
      by_cases hx : x ≠ 0
      · rw [if_pos hx]
        have hm : (1 + 2 * maskRec xs) % 2 = 1 := by omega
        simp [hm, hx]
      · rw [if_neg hx]
        have hm : (0 + 2 * maskRec xs) % 2 = 0 := by omega
        simp [hm, hx]
    | succ j =>
      rw [maskRec, Nat.testBit_succ, List.getD_cons_succ, ← ih j]
      congr 1
      by_cases hx : x ≠ 0
      · rw [if_pos hx]; omega
      · rw [if_neg hx]; omega

theorem maskRec_eq_zero_iff (xs : List Nat) : maskRec xs = 0 ↔ ∀ x ∈ xs, x = 0 := by
  induction xs with
  | nil => simp [maskRec]
  | cons x xs ih =>
    rw [maskRec]
    constructor
    · intro h y hy
      have hx : x = 0 := by
        by_cases hx : x ≠ 0
        · rw [if_pos hx] at h; omega
        · omega
      have hxs : maskRec xs = 0 := by
        by_cases hx2 : x ≠ 0
        · rw [if_pos hx2] at h; omega
        · rw [if_neg hx2] at h; omega
      rcases List.mem_cons.mp hy with rfl | hy'
      · exact hx
      · exact ih.mp hxs y hy'
    · intro h
      have hx : x = 0 := h x (by simp)
      have hxs : maskRec xs = 0 := ih.mpr (fun y hy => h y (by simp [hy]))
      rw [if_neg (by omega : ¬ x ≠ 0), hxs]

theorem countOnesAux_maskRec (xs : List Nat) (f : Nat) (h : xs.length ≤ f) :
    countOnesAux f (maskRec xs) = (xs.filter (· ≠ 0)).length := by
  induction xs generalizing f with
  | nil => simp [maskRec, countOnesAux_zero]
  | cons x xs ih =>
    cases f with
    | zero => simp at h
    | succ f =>
      rw [maskRec, countOnesAux]
      have hlen : xs.length ≤ f := by simpa using h
      by_cases hx : x ≠ 0
      · rw [if_pos hx]
        have h1 : (1 + 2 * maskRec xs) % 2 = 1 := by omega
        have h2 : (1 + 2 * maskRec xs) / 2 = maskRec xs := by omega
        rw [h1, h2, ih f hlen]
        simp only [List.filter_cons, hx, decide_not, if_pos, List.length_cons]
        simp [hx]
        omega
      · rw [if_neg hx]
        have h1 : (0 + 2 * maskRec xs) % 2 = 0 := by omega
        have h2 : (0 + 2 * maskRec xs) / 2 = maskRec xs := by omega
        rw [h1, h2, ih f hlen]
        simp [List.filter_cons, hx]

theorem maskFold_testBit (inputs : List Nat) :
    ∀ (k s : Nat) (m0 : Nat) (j : Nat),
      (((List.range' s k).foldl
          (fun mask i => if inputs.getD i 0 ≠ 0 then mask ||| (1 <<< i) else mask) m0).testBit j
        = true) ↔
      (m0.testBit j = true ∨ (s ≤ j ∧ j < s + k ∧ inputs.getD j 0 ≠ 0)) := by
  intro k
  induction k with
  | zero =>
    intro s m0 j
    rw [show List.range' s 0 = [] from rfl, List.foldl_nil]
    constructor
    · intro h; exact Or.inl h
    · intro h
      rcases h with h | h
      · exact h
      · omega
  | succ k ih =>
    intro s m0 j
    rw [List.range'_succ]
    simp only [List.foldl_cons]
    rw [ih (s + 1)]
    by_cases hs : inputs.getD s 0 ≠ 0
    · rw [if_pos hs]
      rw [Nat.one_shiftLeft, Nat.testBit_lor, Nat.testBit_two_pow]
      constructor
      · intro h
        rcases h with h | h
        · rcases Bool.or_eq_true_iff.mp h with h' | h'
          · exact Or.inl h'
          · have hj : s = j := by simpa using h'
            exact Or.inr ⟨by omega, by omega, hj ▸ hs⟩
        · exact Or.inr ⟨by omega, by omega, h.2.2⟩
      · intro h
        rcases h with h | ⟨h1, h2, h3⟩
        · exact Or.inl (Bool.or_eq_true_iff.mpr (Or.inl h))
        · by_cases hj : s = j
          · exact Or.inl (Bool.or_eq_true_iff.mpr (Or.inr (by simp [hj])))
          · exact Or.inr ⟨by omega, by omega, h3⟩
    · rw [if_neg hs]
      constructor
      · intro h
        rcases h with h | h
        · exact Or.inl h
        · exact Or.inr ⟨by omega, by omega, h.2.2⟩
      · intro h
        rcases h with h | ⟨h1, h2, h3⟩
        · exact Or.inl h
        · by_cases hj : s = j
          · exact absurd (hj ▸ h3) hs
          · exact Or.inr ⟨by omega, by omega, h3⟩

theorem nonzeroMask_eq_maskRec (inputs : List Nat) (h8 : inputs.length = 8) :
    nonzeroMask inputs = maskRec inputs := by
  apply Nat.eq_of_testBit_eq
  intro j
  rw [Bool.eq_iff_iff, nonzeroMask, List.range_eq_range', maskFold_testBit inputs 8 0 0 j,
    maskRec_testBit]
  rw [Nat.zero_testBit]
  simp only [decide_eq_true_eq]
  constructor
  · intro h
    rcases h with h | h
    · exact absurd h (by simp)
    · exact h.2.2
  · intro h
    by_cases hj : j < 8
    · exact Or.inr ⟨by omega, by omega, h⟩
    · rw [List.getD_eq_default _ _ (by omega)] at h
      omega

theorem foldl_min_le_init (l : List Nat) : ∀ a : Nat, l.foldl Nat.min a ≤ a := by
  induction l with
  | nil => intro a; simp
  | cons x xs ih =>
    intro a
    rw [List.foldl_cons]
    exact le_trans (ih (Nat.min a x)) (Nat.min_le_left a x)

theorem foldl_min_le_mem (l : List Nat) : ∀ (a : Nat) (x : Nat), x ∈ l → l.foldl Nat.min a ≤ x := by
  induction l with
  | nil => intro a x hx; simp at hx
  | cons y ys ih =>
    intro a x hx
    rw [List.foldl_cons]
    rcases List.mem_cons.mp hx with rfl | hx'
    · exact le_trans (foldl_min_le_init ys _) (Nat.min_le_right a x)
    · exact ih _ x hx'

theorem minLeadingZeros_le {inputs : List Nat} {x : Nat} (hx : x ∈ inputs) :
    minLeadingZeros inputs ≤ u64LeadingZeros x :=
  foldl_min_le_mem _ _ _ (List.mem_map_of_mem u64LeadingZeros hx)

theorem minTrailingZeros_le {inputs : List Nat} {x : Nat} (hx : x ∈ inputs) :
    minTrailingZeros inputs ≤ u64TrailingZeros x :=
  foldl_min_le_mem _ _ _ (List.mem_map_of_mem u64TrailingZeros hx)

theorem nonzeroMask_exists_ne {inputs : List Nat} (h8 : inputs.length = 8)
    (hm : nonzeroMask inputs ≠ 0) : ∃ x ∈ inputs, x ≠ 0 := by
  rw [nonzeroMask_eq_maskRec inputs h8] at hm
  by_contra hall
  push_neg at hall
  exact hm ((maskRec_eq_zero_iff inputs).mpr hall)

theorem nonzeroMask_lt_256 (inputs : List Nat) (h8 : inputs.length = 8) :
    nonzeroMask inputs < 256 := by
  rw [nonzeroMask_eq_maskRec inputs h8]
  have := maskRec_lt inputs
  rw [h8] at this
  exact this

theorem countOnes8_nonzeroMask (inputs : List Nat) (h8 : inputs.length = 8) :
    countOnes8 (nonzeroMask inputs) = (inputs.filter (· ≠ 0)).length := by
  rw [nonzeroMask_eq_maskRec inputs h8, countOnes8, countOnesAux_maskRec inputs 8 (by omega)]

/-- Everything `nibble_pack8`'s header computation guarantees: the ranges of
`num_nibbles` and `trailing_nibbles`, and the fact that every nonzero input,
shifted right by the trailing-zero nibbles, fits in `num_nibbles` nibbles and
loses nothing in the shift. -/
theorem encoderFacts (inputs : List Nat) (h8 : inputs.length = 8)
    (hlt : ∀ x ∈ inputs, x < 2 ^ 64) (hm : nonzeroMask inputs ≠ 0) :
    1 ≤ numNibbles inputs ∧ numNibbles inputs ≤ 16 ∧ trailingNibbles inputs ≤ 15 ∧
    numNibbles inputs + trailingNibbles inputs ≤ 16 ∧
    (∀ x ∈ inputs, x ≠ 0 →
      (x >>> (trailingNibbles inputs * 4)) <<< (trailingNibbles inputs * 4) = x ∧
      x >>> (trailingNibbles inputs * 4) < 2 ^ (numNibbles inputs * 4)) := by
  obtain ⟨x0, hx0m, hx0⟩ := nonzeroMask_exists_ne h8 hm
  have hx0lt := hlt x0 hx0m
  have hbl0 : bitLenAux 64 x0 ≤ 64 := bitLenAux_le 64 x0
  have ht0 : tzcAux 64 x0 < bitLenAux 64 x0 := tzcAux_lt_bitLenAux 64 x0 hx0 hx0lt
  have hLZ : minLeadingZeros inputs ≤ 64 - bitLenAux 64 x0 := minLeadingZeros_le hx0m
  have hTZ : minTrailingZeros inputs ≤ tzcAux 64 x0 := minTrailingZeros_le hx0m
  have hbounds : 1 ≤ numNibbles inputs ∧ numNibbles inputs ≤ 16 ∧
      trailingNibbles inputs ≤ 15 ∧ numNibbles inputs + trailingNibbles inputs ≤ 16 := by
    rw [numNibbles, trailingNibbles]
    omega
  refine ⟨hbounds.1, hbounds.2.1, hbounds.2.2.1, hbounds.2.2.2, ?_⟩
  intro x hxm hx
  have hxlt := hlt x hxm
  have hbl : bitLenAux 64 x ≤ 64 := bitLenAux_le 64 x
  have ht : tzcAux 64 x < bitLenAux 64 x := tzcAux_lt_bitLenAux 64 x hx hxlt
  have hxbl : x < 2 ^ bitLenAux 64 x := lt_two_pow_bitLenAux 64 x hxlt
  have hdvdt : 2 ^ tzcAux 64 x ∣ x := two_pow_tzcAux_dvd 64 x
  have hsx : trailingNibbles inputs * 4 ≤ tzcAux 64 x := by
    have := minTrailingZeros_le hxm
    rw [u64TrailingZeros] at this
    rw [trailingNibbles]
    omega
  have hdvds : 2 ^ (trailingNibbles inputs * 4) ∣ x :=
    dvd_trans (Nat.pow_dvd_pow 2 hsx) hdvdt
  constructor
  · rw [Nat.shiftRight_eq_div_pow, Nat.shiftLeft_eq]
    exact Nat.div_mul_cancel hdvds
  · have hxlz := minLeadingZeros_le hxm
    rw [u64LeadingZeros] at hxlz
    have hstep : x >>> (trailingNibbles inputs * 4) <
        2 ^ (bitLenAux 64 x - trailingNibbles inputs * 4) := by
      rw [Nat.shiftRight_eq_div_pow, Nat.div_lt_iff_lt_mul (Nat.pos_pow_of_pos _ (by norm_num)),
        ← Nat.pow_add]
      calc x < 2 ^ bitLenAux 64 x := hxbl
      _ ≤ 2 ^ (bitLenAux 64 x - trailingNibbles inputs * 4 + trailingNibbles inputs * 4) := by
          apply Nat.pow_le_pow_right (by norm_num)
          omega
    refine lt_of_lt_of_le hstep (Nat.pow_le_pow_right (by norm_num) ?_)
    rw [numNibbles, trailingNibbles] at *
    omega

/-- The width header byte decomposes as `(num_nibbles - 1) * 16 +
trailing_nibbles`, and re-parsing it recovers both fields. -/
theorem nibbleWord_eq (inputs : List Nat) (hnn1 : 1 ≤ numNibbles inputs)
    (hnn : numNibbles inputs ≤ 16) (htz : trailingNibbles inputs ≤ 15) :
    nibbleWord inputs = trailingNibbles inputs + 16 * (numNibbles inputs - 1) ∧
    nibbleWord inputs >>> 4 = numNibbles inputs - 1 ∧
    nibbleWord inputs &&& 15 = trailingNibbles inputs := by
  have hval : nibbleWord inputs = trailingNibbles inputs + 16 * (numNibbles inputs - 1) := by
    rw [nibbleWord, Nat.shiftLeft_eq, Nat.lor_comm]
    rw [show (2 : Nat) ^ 4 = 16 from rfl]
    rw [show (numNibbles inputs - 1) * 16 = 16 * (numNibbles inputs - 1) by ring]
    rw [show (16 : Nat) = 2 ^ 4 from rfl,
      lor_eq_add_of_lt _ (by omega : trailingNibbles inputs < 2 ^ 4)]
    rw [show (2 : Nat) ^ 4 = 16 from rfl]
    exact Nat.mod_eq_of_lt (by omega)
  refine ⟨hval, ?_, ?_⟩
  · rw [hval, Nat.shiftRight_eq_div_pow, show (2 : Nat) ^ 4 = 16 from rfl]
    omega
  · rw [hval, show (15 : Nat) = 2 ^ 4 - 1 from rfl, Nat.and_pow_two_sub_one_eq_mod,
      show (2 : Nat) ^ 4 = 16 from rfl]
    omega

/-! ### Encoder normal form -/

theorem bytesLE_field (v P a b : Nat) (hv : v < 2 ^ (8 * a)) :
    bytesLE (v + 2 ^ (8 * a) * P) (a + b) = bytesLE v a ++ bytesLE P b := by
  rw [bytesLE_split]
  congr 1
  · apply bytesLE_congr
    rw [Nat.add_mul_mod_self_left]
  · congr 1
    rw [Nat.add_mul_div_left _ _ (Nat.pos_pow_of_pos _ (by norm_num)), Nat.div_eq_of_lt hv]
    omega

theorem pack_to_even_nibbles_norm (nn tzn : Nat) (hev : nn % 2 = 0) :
    ∀ (inputs buf : List Nat),
      (∀ x ∈ inputs, x ≠ 0 → x >>> (tzn * 4) < 2 ^ (nn * 4)) →
      pack_to_even_nibbles inputs buf nn tzn =
        buf ++ bytesLE (packNat (nn * 4) ((inputs.filter (· ≠ 0)).map (· >>> (tzn * 4))))
          (nn * 4 * (inputs.filter (· ≠ 0)).length / 8) := by
  intro inputs
  induction inputs with
  | nil =>
    intro buf hfit
    simp [pack_to_even_nibbles, packNat, bytesLE]
  | cons x xs ih =>
    intro buf hfit
    rw [pack_to_even_nibbles, List.foldl_cons]
    by_cases hx : x ≠ 0
    · rw [if_pos hx]
      have hxs : ∀ y ∈ xs, y ≠ 0 → y >>> (tzn * 4) < 2 ^ (nn * 4) :=
        fun y hy => hfit y (by simp [hy])
      have := ih (direct_write_uint_le buf (x >>> (tzn * 4)) (nn / 2)) hxs
      rw [pack_to_even_nibbles] at this
      rw [this, direct_write_uint_le, List.append_assoc]
      congr 1
      rw [List.filter_cons_of_pos (by simpa using hx), List.map_cons, List.length_cons, packNat]
      have hmul : nn * 4 * ((xs.filter (· ≠ 0)).length + 1) =
          nn * 4 * (xs.filter (· ≠ 0)).length + nn * 4 := by ring
      have h8w : (8 : Nat) ∣ nn * 4 := by omega
      have h8e : (8 : Nat) ∣ nn * 4 * (xs.filter (· ≠ 0)).length := h8w.mul_right _
      have hlen : nn * 4 * ((xs.filter (· ≠ 0)).length + 1) / 8 =
          nn / 2 + nn * 4 * (xs.filter (· ≠ 0)).length / 8 := by omega
      rw [hlen]
      have hv : x >>> (tzn * 4) < 2 ^ (8 * (nn / 2)) := by
        have := hfit x (by simp) hx
        have hexp : 8 * (nn / 2) = nn * 4 := by omega
        rw [hexp]
        exact this
      have hexp : (2 : Nat) ^ (nn * 4) = 2 ^ (8 * (nn / 2)) := by
        congr 1
        omega
      rw [hexp, bytesLE_field _ _ _ _ hv]
    · rw [if_neg hx]
      have hxs : ∀ y ∈ xs, y ≠ 0 → y >>> (tzn * 4) < 2 ^ (nn * 4) :=
        fun y hy => hfit y (by simp [hy])
      have := ih buf hxs
      rw [pack_to_even_nibbles] at this
      rw [this, List.filter_cons_of_neg (by simpa using hx)]


set_option maxHeartbeats 1000000 in
theorem packUniversalLoop_norm (nb s : Nat) (hnb : 0 < nb) (hnb64 : nb ≤ 64) :
    ∀ (xs : List Nat) (t S : Nat) (buf0 : List Nat),
      (∀ x ∈ xs, x ≠ 0 → x >>> s < 2 ^ nb) →
      S < 2 ^ t →
      packUniversalLoop nb s xs (S / 2 ^ (64 * (t / 64))) (t % 64)
          (buf0 ++ bytesLE S (8 * (t / 64))) =
        ((S + 2 ^ t * packNat nb ((xs.filter (· ≠ 0)).map (· >>> s))) /
            2 ^ (64 * ((t + nb * (xs.filter (· ≠ 0)).length) / 64)),
          (t + nb * (xs.filter (· ≠ 0)).length) % 64,
          buf0 ++ bytesLE (S + 2 ^ t * packNat nb ((xs.filter (· ≠ 0)).map (· >>> s)))
            (8 * ((t + nb * (xs.filter (· ≠ 0)).length) / 64))) := by
  intro xs
  induction xs with
  | nil =>
    intro t S buf0 hfit hS
    simp [packUniversalLoop, packNat]
  | cons x xs ih =>
    intro t S buf0 hfit hS
    have hfit' : ∀ y ∈ xs, y ≠ 0 → y >>> s < 2 ^ nb := fun y hy => hfit y (by simp [hy])
    by_cases hx : x ≠ 0
    · -- nonzero input
      have hv : x >>> s < 2 ^ nb := hfit x (by simp) hx
      have hbc : t % 64 < 64 := Nat.mod_lt _ (by norm_num)
      have htq : t = 64 * (t / 64) + t % 64 := by omega
      have hpow_t : (2 : Nat) ^ t = 2 ^ (64 * (t / 64)) * 2 ^ (t % 64) := by
        rw [← Nat.pow_add]
        congr 1
      have hS1 : S + 2 ^ t * (x >>> s) < 2 ^ (t + nb) := by
        calc S + 2 ^ t * (x >>> s) < 2 ^ t + 2 ^ t * (x >>> s) := by omega
        _ = 2 ^ t * (x >>> s + 1) := by ring
        _ ≤ 2 ^ t * 2 ^ nb := Nat.mul_le_mul_left _ (by omega)
        _ = 2 ^ (t + nb) := by rw [← Nat.pow_add]
      have hout_lt : S / 2 ^ (64 * (t / 64)) < 2 ^ (t % 64) := by
        rw [Nat.div_lt_iff_lt_mul (Nat.pos_pow_of_pos _ (by norm_num))]
        calc S < 2 ^ t := hS
        _ = 2 ^ (t % 64) * 2 ^ (64 * (t / 64)) := by rw [← Nat.pow_add]; congr 1; omega
      have hdiv1 : (S + 2 ^ t * (x >>> s)) / 2 ^ (64 * (t / 64)) =
          S / 2 ^ (64 * (t / 64)) + 2 ^ (t % 64) * (x >>> s) := by
        rw [hpow_t, Nat.mul_assoc,
          Nat.add_mul_div_left _ _ (Nat.pos_pow_of_pos _ (by norm_num : (0:Nat) < 2))]
      have how : S / 2 ^ (64 * (t / 64)) ||| ((x >>> s) <<< (t % 64)) % 2 ^ 64 =
          (S + 2 ^ t * (x >>> s)) / 2 ^ (64 * (t / 64)) % 2 ^ 64 := by
        rw [Nat.shiftLeft_eq, Nat.mul_comm ((x : Nat) >>> s) (2 ^ (t % 64))]
        have ha : S / 2 ^ (64 * (t / 64)) % 2 ^ 64 = S / 2 ^ (64 * (t / 64)) :=
          Nat.mod_eq_of_lt (lt_of_lt_of_le hout_lt
            (Nat.pow_le_pow_right (by norm_num) (by omega)))
        rw [← ha, ← lor_mod_two_pow, lor_eq_add_of_lt _ hout_lt, hdiv1]
      have hbytes1 : bytesLE (S + 2 ^ t * (x >>> s)) (8 * (t / 64)) =
          bytesLE S (8 * (t / 64)) := by
        apply bytesLE_congr
        conv_lhs => rw [hpow_t, Nat.mul_assoc]
        rw [show (2:Nat) ^ (8 * (8 * (t / 64))) = 2 ^ (64 * (t / 64)) by congr 1; ring,
          Nat.add_mul_mod_self_left]
      rw [packUniversalLoop, if_pos hx]
      by_cases hrem : 64 - t % 64 ≤ nb
      · -- spill: the 64-bit word fills up and is written out
        rw [if_pos hrem]
        have hq1 : (t + nb) / 64 = t / 64 + 1 := by omega
        have hbc1 : (t % 64 + nb) % 64 = (t + nb) % 64 := by omega
        have hS1top : (S + 2 ^ t * (x >>> s)) / 2 ^ t = x >>> s := by
          rw [Nat.add_mul_div_left _ _ (Nat.pos_pow_of_pos _ (by norm_num : (0:Nat) < 2)),
            Nat.div_eq_of_lt hS]
          omega
        have how2 : (if 64 - t % 64 < nb then (x >>> s) >>> (64 - t % 64) else 0) =
            (S + 2 ^ t * (x >>> s)) / 2 ^ (64 * ((t + nb) / 64)) := by
          rw [hq1, show (2 : Nat) ^ (64 * (t / 64 + 1)) = 2 ^ t * 2 ^ (64 - t % 64) by
              rw [← Nat.pow_add]; congr 1; omega,
            ← Nat.div_div_eq_div_mul, hS1top, Nat.shiftRight_eq_div_pow]
          by_cases hr2 : 64 - t % 64 < nb
          · rw [if_pos hr2]
          · rw [if_neg hr2]
            have hreq : nb = 64 - t % 64 := by omega
            rw [← hreq, Nat.div_eq_of_lt hv]
        have hbytes2 : bytesLE ((S + 2 ^ t * (x >>> s)) / 2 ^ (8 * (8 * (t / 64)))) 8 =
            bytesLE (S / 2 ^ (64 * (t / 64)) ||| ((x >>> s) <<< (t % 64)) % 2 ^ 64) 8 := by
          rw [how]
          apply bytesLE_congr
          rw [show (8 : Nat) * 8 = 64 from rfl,
            Nat.mod_mod_of_dvd _ (dvd_refl ((2:Nat) ^ 64)),
            show (2:Nat) ^ (8 * (8 * (t / 64))) = 2 ^ (64 * (t / 64)) by congr 1; ring]
        have hbuf : direct_write_uint_le (buf0 ++ bytesLE S (8 * (t / 64)))
              (S / 2 ^ (64 * (t / 64)) ||| ((x >>> s) <<< (t % 64)) % 2 ^ 64) 8 =
            buf0 ++ bytesLE (S + 2 ^ t * (x >>> s)) (8 * ((t + nb) / 64)) := by
          rw [direct_write_uint_le, List.append_assoc, hq1,
            show 8 * (t / 64 + 1) = 8 * (t / 64) + 8 by ring, bytesLE_split, hbytes1, hbytes2]
        rw [hbuf, how2, hbc1]
        rw [ih (t + nb) (S + 2 ^ t * (x >>> s)) buf0 hfit' hS1]
        rw [List.filter_cons_of_pos (by simpa using hx), List.map_cons, List.length_cons,
          packNat]
        have hT : t + nb + nb * (xs.filter (· ≠ 0)).length =
            t + nb * ((xs.filter (· ≠ 0)).length + 1) := by ring
        have hSS : S + 2 ^ t * (x >>> s) +
            2 ^ (t + nb) * packNat nb ((xs.filter (· ≠ 0)).map (· >>> s)) =
            S + 2 ^ t * (x >>> s + 2 ^ nb * packNat nb ((xs.filter (· ≠ 0)).map (· >>> s))) := by
          rw [Nat.pow_add]
          ring
        rw [hT, hSS]
      · -- no spill: keep filling the same word
        rw [if_neg hrem]
        have hq1 : (t + nb) / 64 = t / 64 := by omega
        have hbc1 : (t % 64 + nb) % 64 = (t + nb) % 64 := by omega
        have hout1_lt : (S + 2 ^ t * (x >>> s)) / 2 ^ (64 * (t / 64)) < 2 ^ 64 := by
          rw [Nat.div_lt_iff_lt_mul (Nat.pos_pow_of_pos _ (by norm_num))]
          calc S + 2 ^ t * (x >>> s) < 2 ^ (t + nb) := hS1
          _ ≤ 2 ^ 64 * 2 ^ (64 * (t / 64)) := by
              rw [← Nat.pow_add]
              exact Nat.pow_le_pow_right (by norm_num) (by omega)
        have how' : S / 2 ^ (64 * (t / 64)) ||| ((x >>> s) <<< (t % 64)) % 2 ^ 64 =
            (S + 2 ^ t * (x >>> s)) / 2 ^ (64 * ((t + nb) / 64)) := by
          rw [how, hq1, Nat.mod_eq_of_lt hout1_lt]
        have hbuf : buf0 ++ bytesLE S (8 * (t / 64)) =
            buf0 ++ bytesLE (S + 2 ^ t * (x >>> s)) (8 * ((t + nb) / 64)) := by
          rw [hq1, hbytes1]
        rw [how', hbc1, hbuf]
        rw [ih (t + nb) (S + 2 ^ t * (x >>> s)) buf0 hfit' hS1]
        rw [List.filter_cons_of_pos (by simpa using hx), List.map_cons, List.length_cons,
          packNat]
        have hT : t + nb + nb * (xs.filter (· ≠ 0)).length =
            t + nb * ((xs.filter (· ≠ 0)).length + 1) := by ring
        have hSS : S + 2 ^ t * (x >>> s) +
            2 ^ (t + nb) * packNat nb ((xs.filter (· ≠ 0)).map (· >>> s)) =
            S + 2 ^ t * (x >>> s + 2 ^ nb * packNat nb ((xs.filter (· ≠ 0)).map (· >>> s))) := by
          rw [Nat.pow_add]
          ring
        rw [hT, hSS]
    · -- zero input: skipped entirely
      rw [packUniversalLoop, if_neg hx, List.filter_cons_of_neg (by simpa using hx)]
      exact ih t S buf0 hfit' hS

theorem pack_universal_norm (inputs buf : List Nat) (nn tzn : Nat) (hnn : 0 < nn)
    (hnn16 : nn ≤ 16)
    (hfit : ∀ x ∈ inputs, x ≠ 0 → x >>> (tzn * 4) < 2 ^ (nn * 4)) :
    pack_universal inputs buf nn tzn =
      buf ++ bytesLE (packNat (nn * 4) ((inputs.filter (· ≠ 0)).map (· >>> (tzn * 4))))
        ((nn * 4 * (inputs.filter (· ≠ 0)).length + 7) / 8) := by
  have hloop := packUniversalLoop_norm (nn * 4) (tzn * 4) (by omega) (by omega) inputs 0 0 buf
    hfit (by norm_num)
  simp only [Nat.zero_div, Nat.zero_mod, Nat.mul_zero, Nat.zero_add, Nat.pow_zero, Nat.one_mul,
    bytesLE, List.append_nil] at hloop
  rw [pack_universal, hloop]
  set P := packNat (nn * 4) ((inputs.filter (· ≠ 0)).map (· >>> (tzn * 4))) with hP
  set T := nn * 4 * (inputs.filter (· ≠ 0)).length with hT
  show (if T % 64 > 0 then
      direct_write_uint_le (buf ++ bytesLE P (8 * (T / 64))) (P / 2 ^ (64 * (T / 64)))
        ((T % 64 + 7) / 8)
    else buf ++ bytesLE P (8 * (T / 64))) = buf ++ bytesLE P ((T + 7) / 8)
  by_cases hz : T % 64 > 0
  · rw [if_pos hz, direct_write_uint_le, List.append_assoc]
    have hsplit : bytesLE P ((T + 7) / 8) =
        bytesLE P (8 * (T / 64)) ++ bytesLE (P / 2 ^ (8 * (8 * (T / 64)))) ((T % 64 + 7) / 8) := by
      rw [← bytesLE_split]
      congr 1
      omega
    rw [hsplit,
      show (2 : Nat) ^ (8 * (8 * (T / 64))) = 2 ^ (64 * (T / 64)) by congr 1; ring]
  · rw [if_neg hz]
    have h8 : 8 * (T / 64) = (T + 7) / 8 := by omega
    rw [h8]

theorem nibble_pack8_zero (inputs buf : List Nat) (hm : nonzeroMask inputs = 0) :
    nibble_pack8 inputs buf = buf ++ [0] := by
  rw [nibble_pack8, if_neg (by simp [hm]), hm]

theorem nibble_pack8_norm (inputs buf : List Nat) (h8 : inputs.length = 8)
    (hlt : ∀ x ∈ inputs, x < 2 ^ 64) (hm : nonzeroMask inputs ≠ 0) :
    nibble_pack8 inputs buf =
      buf ++ nonzeroMask inputs :: nibbleWord inputs ::
        bytesLE (packNat (numNibbles inputs * 4)
            ((inputs.filter (· ≠ 0)).map (· >>> (trailingNibbles inputs * 4))))
          ((numNibbles inputs * 4 * (inputs.filter (· ≠ 0)).length + 7) / 8) := by
  obtain ⟨hnn1, hnn16, htzn, hsum, hfits⟩ := encoderFacts inputs h8 hlt hm
  have hfit : ∀ x ∈ inputs, x ≠ 0 → x >>> (trailingNibbles inputs * 4) <
      2 ^ (numNibbles inputs * 4) := fun x hx hxz => (hfits x hx hxz).2
  have happ : ∀ body : List Nat,
      (buf ++ [nonzeroMask inputs, nibbleWord inputs]) ++ body =
        buf ++ nonzeroMask inputs :: nibbleWord inputs :: body := by
    intro body
    rw [List.append_assoc]
    rfl
  rw [nibble_pack8, if_pos hm]
  by_cases hev : numNibbles inputs % 2 = 0
  · rw [if_pos hev,
      pack_to_even_nibbles_norm (numNibbles inputs) (trailingNibbles inputs) hev inputs
        (buf ++ [nonzeroMask inputs, nibbleWord inputs]) hfit, happ]
    have h8dvd : (8 : Nat) ∣ numNibbles inputs * 4 := by omega
    have h8body : (8 : Nat) ∣ numNibbles inputs * 4 * (inputs.filter (· ≠ 0)).length :=
      h8dvd.mul_right _
    have hlen : numNibbles inputs * 4 * (inputs.filter (· ≠ 0)).length / 8 =
        (numNibbles inputs * 4 * (inputs.filter (· ≠ 0)).length + 7) / 8 := by omega
    rw [hlen]
  · rw [if_neg hev,
      pack_universal_norm inputs (buf ++ [nonzeroMask inputs, nibbleWord inputs])
        (numNibbles inputs) (trailingNibbles inputs) (by omega) hnn16 hfit, happ]

/-- C5: for every group of 8 u64 inputs with at least one nonzero value, the
two header bytes emitted by `nibble_pack8` satisfy `num_nibbles ∈ [1, 16]`,
`trailing_zero_nibbles ∈ [0, 15]`, `num_nibbles + trailing_zero_nibbles ≤ 16`
(re-parsing the width byte recovers both fields), and the number of body
bytes emitted after the header equals
`ceil(num_nibbles * 4 * popcount(nonzero_mask) / 8)`. -/
theorem c5_header_discipline (inputs buf : List Nat) (h8 : inputs.length = 8)
    (hlt : ∀ x ∈ inputs, x < 2 ^ 64) (hm : nonzeroMask inputs ≠ 0) :
    1 ≤ numNibbles inputs ∧ numNibbles inputs ≤ 16 ∧
    trailingNibbles inputs ≤ 15 ∧
    numNibbles inputs + trailingNibbles inputs ≤ 16 ∧
    nibbleWord inputs >>> 4 + 1 = numNibbles inputs ∧
    nibbleWord inputs &&& 15 = trailingNibbles inputs ∧
    ∃ body : List Nat,
      nibble_pack8 inputs buf = buf ++ nonzeroMask inputs :: nibbleWord inputs :: body ∧
      body.length = (numNibbles inputs * 4 * countOnes8 (nonzeroMask inputs) + 7) / 8 := by
  obtain ⟨hnn1, hnn16, htzn, hsum, _⟩ := encoderFacts inputs h8 hlt hm
  obtain ⟨hval, hhi, hlo⟩ := nibbleWord_eq inputs hnn1 hnn16 htzn
  refine ⟨hnn1, hnn16, htzn, hsum, by omega, hlo, ?_⟩
  refine ⟨_, nibble_pack8_norm inputs buf h8 hlt hm, ?_⟩
  rw [bytesLE_length, countOnes8_nonzeroMask inputs h8]

/-- Witness for C5 at a concrete group. -/
theorem c5_header_discipline_witness :
    1 ≤ numNibbles [1, 2, 3, 4, 5, 6, 7, 8] ∧ numNibbles [1, 2, 3, 4, 5, 6, 7, 8] ≤ 16 ∧
    trailingNibbles [1, 2, 3, 4, 5, 6, 7, 8] ≤ 15 ∧
    numNibbles [1, 2, 3, 4, 5, 6, 7, 8] + trailingNibbles [1, 2, 3, 4, 5, 6, 7, 8] ≤ 16 ∧
    nibbleWord [1, 2, 3, 4, 5, 6, 7, 8] >>> 4 + 1 = numNibbles [1, 2, 3, 4, 5, 6, 7, 8] ∧
    nibbleWord [1, 2, 3, 4, 5, 6, 7, 8] &&& 15 = trailingNibbles [1, 2, 3, 4, 5, 6, 7, 8] ∧
    ∃ body : List Nat,
      nibble_pack8 [1, 2, 3, 4, 5, 6, 7, 8] [] =
        [] ++ nonzeroMask [1, 2, 3, 4, 5, 6, 7, 8] :: nibbleWord [1, 2, 3, 4, 5, 6, 7, 8] :: body ∧
      body.length = (numNibbles [1, 2, 3, 4, 5, 6, 7, 8] * 4 *
        countOnes8 (nonzeroMask [1, 2, 3, 4, 5, 6, 7, 8]) + 7) / 8 :=
  c5_header_discipline [1, 2, 3, 4, 5, 6, 7, 8] [] (by decide) (by decide) (by decide)

/-- C6: for every group of 8 u64 inputs with a nonzero value and an even
computed `num_nibbles`, `pack_to_even_nibbles` and `pack_universal` append
exactly the same byte sequence, given the same `num_nibbles` and
`trailing_zero_nibbles` arguments (the ones `nibble_pack8` computes). -/
theorem c6_even_universal_equiv (inputs buf : List Nat) (h8 : inputs.length = 8)
    (hlt : ∀ x ∈ inputs, x < 2 ^ 64) (hm : nonzeroMask inputs ≠ 0)
    (hev : numNibbles inputs % 2 = 0) :
    pack_to_even_nibbles inputs buf (numNibbles inputs) (trailingNibbles inputs) =
      pack_universal inputs buf (numNibbles inputs) (trailingNibbles inputs) := by
  obtain ⟨hnn1, hnn16, htzn, hsum, hfits⟩ := encoderFacts inputs h8 hlt hm
  have hfit : ∀ x ∈ inputs, x ≠ 0 → x >>> (trailingNibbles inputs * 4) <
      2 ^ (numNibbles inputs * 4) := fun x hx hxz => (hfits x hx hxz).2
  rw [pack_to_even_nibbles_norm (numNibbles inputs) (trailingNibbles inputs) hev inputs buf hfit,
    pack_universal_norm inputs buf (numNibbles inputs) (trailingNibbles inputs) (by omega)
      hnn16 hfit]
  have h8dvd : (8 : Nat) ∣ numNibbles inputs * 4 := by omega
  have h8body : (8 : Nat) ∣ numNibbles inputs * 4 * (inputs.filter (· ≠ 0)).length :=
    h8dvd.mul_right _
  have hlen : numNibbles inputs * 4 * (inputs.filter (· ≠ 0)).length / 8 =
      (numNibbles inputs * 4 * (inputs.filter (· ≠ 0)).length + 7) / 8 := by omega
  rw [hlen]

/-- Witness for C6 at a concrete even-width group. -/
theorem c6_even_universal_equiv_witness :
    pack_to_even_nibbles [17, 17, 17, 17, 17, 17, 17, 17] [9]
        (numNibbles [17, 17, 17, 17, 17, 17, 17, 17])
        (trailingNibbles [17, 17, 17, 17, 17, 17, 17, 17]) =
      pack_universal [17, 17, 17, 17, 17, 17, 17, 17] [9]
        (numNibbles [17, 17, 17, 17, 17, 17, 17, 17])
        (trailingNibbles [17, 17, 17, 17, 17, 17, 17, 17]) :=
  c6_even_universal_equiv [17, 17, 17, 17, 17, 17, 17, 17] [9] (by decide) (by decide)
    (by decide) (by decide)

/-! ### Decoder correctness -/

set_option maxHeartbeats 1600000 in
theorem unpack8Loop_ok {σ : Type} (ops : SinkOps σ) (inbuf : List Nat) (m w sh B R : Nat)
    (hw : 0 < w) (hw64 : w ≤ 64)
    (hvalid : 2 + B ≤ inbuf.length)
    (hread : ∀ k : Nat, direct_read_uint_le inbuf (2 + k) = R / 2 ^ (8 * k) % 2 ^ 64) :
    ∀ (xs : List Nat) (b c in_word buf_index bit_cursor : Nat) (st : σ),
      (∀ j, j < xs.length → (m &&& (1 <<< (b + j)) ≠ 0 ↔ xs.getD j 0 ≠ 0)) →
      (∀ x ∈ xs, x ≠ 0 → (x >>> sh) <<< sh = x ∧ x < 2 ^ 64) →
      (∀ j, j < (xs.filter (· ≠ 0)).length →
        R / 2 ^ (w * (c + j)) % 2 ^ w = ((xs.filter (· ≠ 0)).map (· >>> sh)).getD j 0) →
      w * (c + (xs.filter (· ≠ 0)).length) ≤ 8 * B →
      ((xs.filter (· ≠ 0)).length ≠ 0 →
        bit_cursor = w * c % 64 ∧
        in_word = R / 2 ^ (64 * (w * c / 64)) % 2 ^ 64 ∧
        buf_index = 2 + 8 * (w * c / 64) + 8) →
      unpack8Loop ops inbuf m w sh (2 + B) (2 ^ w - 1) (List.range' b xs.length)
          in_word buf_index bit_cursor st =
        .ok (xs.foldl ops.process st) := by
  intro xs
  induction xs with
  | nil =>
    intro b c in_word buf_index bit_cursor st hmask hrec hext hcnt hstate
    rw [List.length_nil, show List.range' b 0 = [] from rfl, unpack8Loop, List.foldl_nil]
  | cons x xs ih =>
    intro b c in_word buf_index bit_cursor st hmask hrec hext hcnt hstate
    rw [List.length_cons, List.range'_succ, unpack8Loop, List.foldl_cons]
    have hrec' : ∀ y ∈ xs, y ≠ 0 → (y >>> sh) <<< sh = y ∧ y < 2 ^ 64 :=
      fun y hy => hrec y (by simp [hy])
    have hmask' : ∀ j, j < xs.length →
        (m &&& (1 <<< (b + 1 + j)) ≠ 0 ↔ xs.getD j 0 ≠ 0) := by
      intro j hj
      have := hmask (j + 1) (by simpa using Nat.succ_lt_succ hj)
      rw [show b + (j + 1) = b + 1 + j by ring, List.getD_cons_succ] at this
      exact this
    by_cases hx : x ≠ 0
    · -- nonzero position
      have hbit : m &&& (1 <<< (b + 0)) ≠ 0 := by
        rw [hmask 0 (by simp), List.getD_cons_zero]
        exact hx
      rw [Nat.add_zero] at hbit
      rw [if_pos hbit]
      have hfc : (x :: xs).filter (· ≠ 0) = x :: xs.filter (· ≠ 0) :=
        List.filter_cons_of_pos (by simpa using hx)
      have hfpos : ((x :: xs).filter (· ≠ 0)).length ≠ 0 := by
        rw [hfc]
        simp
      obtain ⟨hbc, hiw, hbi⟩ := hstate hfpos
      obtain ⟨hxsh, hxlt⟩ := hrec x (by simp) hx
      have hx0 : R / 2 ^ (w * c) % 2 ^ w = x >>> sh := by
        have h0 := hext 0 (by rw [hfc]; simp)
        rw [hfc, List.map_cons, List.getD_cons_zero, Nat.add_zero] at h0
        exact h0
      have hbc64 : w * c % 64 < 64 := Nat.mod_lt _ (by norm_num)
      have hqsum : 64 * (w * c / 64) + w * c % 64 = w * c := by omega
      have hcnt1 : w * (c + 1) ≤ 8 * B := by
        have : w * (c + ((x :: xs).filter (· ≠ 0)).length) =
            w * (c + 1) + w * (xs.filter (· ≠ 0)).length := by
          rw [hfc, List.length_cons]
          ring
        omega
      have hext' : ∀ j, j < (xs.filter (· ≠ 0)).length →
          R / 2 ^ (w * (c + 1 + j)) % 2 ^ w = ((xs.filter (· ≠ 0)).map (· >>> sh)).getD j 0 := by
        intro j hj
        have h1 := hext (j + 1) (by rw [hfc, List.length_cons]; omega)
        rw [hfc, List.map_cons, List.getD_cons_succ,
          show c + (j + 1) = c + 1 + j by ring] at h1
        exact h1
      have hcnt' : w * (c + 1 + (xs.filter (· ≠ 0)).length) ≤ 8 * B := by
        have : w * (c + ((x :: xs).filter (· ≠ 0)).length) =
            w * (c + 1 + (xs.filter (· ≠ 0)).length) := by
          rw [hfc, List.length_cons]
          ring
        omega
      have hprocess : ((x >>> sh) <<< sh) % 2 ^ 64 = x := by
        rw [hxsh]
        exact Nat.mod_eq_of_lt hxlt
      by_cases hfill : 64 - bit_cursor ≤ w ∧ buf_index < 2 + B
      · -- a refill read happens
        rw [if_pos hfill, if_pos (by omega : buf_index < inbuf.length)]
        have hiw2 : direct_read_uint_le inbuf buf_index =
            R / 2 ^ (64 * (w * c / 64 + 1)) % 2 ^ 64 := by
          rw [hbi, show 2 + 8 * (w * c / 64) + 8 = 2 + (8 * (w * c / 64) + 8) by ring,
            hread (8 * (w * c / 64) + 8),
            show 8 * (8 * (w * c / 64) + 8) = 64 * (w * c / 64 + 1) by ring]
        have hout : (if 64 - bit_cursor < w then
              ((in_word >>> bit_cursor) &&& (2 ^ w - 1)) |||
                (((direct_read_uint_le inbuf buf_index) <<< (64 - bit_cursor)) % 2 ^ 64 &&&
                  (2 ^ w - 1))
            else (in_word >>> bit_cursor) &&& (2 ^ w - 1)) = x >>> sh := by
          by_cases hlow : 64 - bit_cursor < w
          · rw [if_pos hlow]
            have hwin := window_extract_high R (w * c / 64) (w * c % 64) w hbc64
              (by omega) hw64
            rw [Nat.shiftRight_eq_div_pow R (64 * (w * c / 64)),
              Nat.shiftRight_eq_div_pow R (64 * (w * c / 64 + 1))] at hwin
            rw [hiw, hiw2, hbc, hwin, hqsum, hx0]
          · rw [if_neg hlow]
            have hwlow := window_extract_low (R / 2 ^ (64 * (w * c / 64))) (w * c % 64) w
              (by omega)
            rw [hiw, hbc, hwlow, Nat.div_div_eq_div_mul, ← Nat.pow_add, hqsum, hx0]
        rw [hout, hprocess]
        have hbc' : (bit_cursor + w) % 64 = w * (c + 1) % 64 := by
          rw [hbc]
          have : w * (c + 1) = w * c + w := by ring
          omega
        have hq' : w * c / 64 + 1 = w * (c + 1) / 64 := by
          have h1 : w * (c + 1) = w * c + w := by ring
          omega
        rw [hbc', hiw2, hq', hbi,
          show 2 + 8 * (w * c / 64) + 8 + 8 = 2 + 8 * (w * c / 64 + 1) + 8 by ring, hq']
        exact ih (b + 1) (c + 1) _ _ _ (ops.process st x) hmask' hrec' hext' hcnt'
          (fun _ => ⟨rfl, rfl, rfl⟩)
      · rw [if_neg hfill]
        by_cases hrem : 64 - bit_cursor ≤ w
        · -- the word boundary was reached but the frame has no more bytes:
          -- this value is the last nonzero one and fits the current word
          have hbige : buf_index ≥ 2 + B := by
            rcases Nat.lt_or_ge buf_index (2 + B) with h | h
            · exact absurd ⟨hrem, h⟩ hfill
            · exact h
          have hlast : (xs.filter (· ≠ 0)).length = 0 := by
            by_contra hne
            have h1 : w * (c + 2) ≤ 8 * B := by
              have : w * (c + 1 + (xs.filter (· ≠ 0)).length) ≥ w * (c + 2) := by
                apply Nat.mul_le_mul_left
                omega
              omega
            have h2 : 64 * (w * c / 64 + 1) ≥ 8 * B := by omega
            have h3 : w * (c + 1) = w * c + w := by ring
            have h4 : w * (c + 2) = w * c + 2 * w := by ring
            omega
          have hfit : w * c % 64 + w ≤ 64 := by
            have h1 : w * (c + 1) = w * c + w := by ring
            have h2 : 64 * (w * c / 64 + 1) ≥ 8 * B := by omega
            omega
          have hwlow := window_extract_low (R / 2 ^ (64 * (w * c / 64))) (w * c % 64) w hfit
          rw [hiw, hbc, hwlow, Nat.div_div_eq_div_mul, ← Nat.pow_add, hqsum, hx0, hprocess]
          exact ih (b + 1) (c + 1) _ _ _ (ops.process st x) hmask' hrec' hext' hcnt'
            (fun hne => absurd hlast hne)
        · -- plain extraction from the current word
          have hfit : w * c % 64 + w ≤ 64 := by omega
          have hwlow := window_extract_low (R / 2 ^ (64 * (w * c / 64))) (w * c % 64) w hfit
          rw [hiw, hbc, hwlow, Nat.div_div_eq_div_mul, ← Nat.pow_add, hqsum, hx0, hprocess]
          have hbc' : (w * c % 64 + w) % 64 = w * (c + 1) % 64 := by
            have : w * (c + 1) = w * c + w := by ring
            omega
          have hq' : w * c / 64 = w * (c + 1) / 64 := by
            have : w * (c + 1) = w * c + w := by ring
            omega
          rw [hbc', hbi, hq']
          exact ih (b + 1) (c + 1) _ _ _ (ops.process st x) hmask' hrec' hext' hcnt'
            (fun _ => ⟨rfl, rfl, rfl⟩)
    · -- zero position
      have hbit : ¬ m &&& (1 <<< b) ≠ 0 := by
        have h0 := hmask 0 (by simp)
        rw [Nat.add_zero, List.getD_cons_zero] at h0
        intro hcon
        exact (h0.mp hcon) (by omega)
      rw [if_neg hbit]
      have hxz : x = 0 := by omega
      have hfc : (x :: xs).filter (· ≠ 0) = xs.filter (· ≠ 0) :=
        List.filter_cons_of_neg (by simpa using hx)
      have hext' : ∀ j, j < (xs.filter (· ≠ 0)).length →
          R / 2 ^ (w * (c + j)) % 2 ^ w = ((xs.filter (· ≠ 0)).map (· >>> sh)).getD j 0 := by
        intro j hj
        have h1 := hext j (by rw [hfc]; exact hj)
        rw [hfc] at h1
        exact h1
      have hcnt' : w * (c + (xs.filter (· ≠ 0)).length) ≤ 8 * B := by
        rw [hfc] at hcnt
        exact hcnt
      have hstate' : (xs.filter (· ≠ 0)).length ≠ 0 →
          bit_cursor = w * c % 64 ∧
          in_word = R / 2 ^ (64 * (w * c / 64)) % 2 ^ 64 ∧
          buf_index = 2 + 8 * (w * c / 64) + 8 := by
        intro hne
        exact hstate (by rw [hfc]; exact hne)
      rw [hxz]
      exact ih (b + 1) c _ _ _ (ops.process st 0) hmask' hrec' hext' hcnt' hstate'

theorem and_one_shift_ne_zero (m j : Nat) : m &&& (1 <<< j) ≠ 0 ↔ m.testBit j = true := by
  rw [Nat.one_shiftLeft, Nat.and_two_pow]
  cases h : m.testBit j
  · simp
  · simp [h]

theorem read_shifted (b0 b1 : Nat) (T : List Nat) (k : Nat) :
    direct_read_uint_le (b0 :: b1 :: T) (2 + k) = natOfBytes T / 2 ^ (8 * k) % 2 ^ 64 := by
  rw [direct_read_uint_le,
    show (2 : Nat) + k = (k + 1) + 1 by ring, List.drop_succ_cons, List.drop_succ_cons,
    natOfBytes_take, natOfBytes_drop]

theorem read_first (b0 b1 : Nat) (T : List Nat) :
    direct_read_uint_le (b0 :: b1 :: T) 2 = natOfBytes T % 2 ^ 64 := by
  have h := read_shifted b0 b1 T 0
  simpa using h

theorem nibble_unpack8_zero_head {σ : Type} (ops : SinkOps σ) (T : List Nat) (st : σ) :
    nibble_unpack8 ops (0 :: T) st = .ok (ops.process8 st 0, T) := rfl

theorem nibble_unpack8_cons {σ : Type} (ops : SinkOps σ) (b0 b1 : Nat) (T : List Nat) (st : σ) :
    nibble_unpack8 ops (b0 :: b1 :: T) st =
      if b0 = 0 then .ok (ops.process8 st 0, b1 :: T)
      else
        match unpack8Loop ops (b0 :: b1 :: T) b0 (((b1 >>> 4) + 1) * 4) ((b1 &&& 15) * 4)
            (2 + (((b1 >>> 4) + 1) * 4 * countOnes8 b0 + 7) / 8)
            (if ((b1 >>> 4) + 1) * 4 ≥ 64 then 2 ^ 64 - 1 else 1 <<< (((b1 >>> 4) + 1) * 4) - 1)
            (List.range 8) (direct_read_uint_le (b0 :: b1 :: T) 2) 10 0 st with
        | .error e => .err e
        | .ok st2 =>
          if 2 + (((b1 >>> 4) + 1) * 4 * countOnes8 b0 + 7) / 8 ≤ (b0 :: b1 :: T).length then
            .ok (st2, (b0 :: b1 :: T).drop (2 + (((b1 >>> 4) + 1) * 4 * countOnes8 b0 + 7) / 8))
          else .panicked := rfl

theorem nibble_unpack8_cons_ok {σ : Type} (ops : SinkOps σ) (b0 b1 : Nat) (T : List Nat)
    (st st2 : σ) (hb0 : ¬ b0 = 0)
    (hloop : unpack8Loop ops (b0 :: b1 :: T) b0 (((b1 >>> 4) + 1) * 4) ((b1 &&& 15) * 4)
        (2 + (((b1 >>> 4) + 1) * 4 * countOnes8 b0 + 7) / 8)
        (if ((b1 >>> 4) + 1) * 4 ≥ 64 then 2 ^ 64 - 1 else 1 <<< (((b1 >>> 4) + 1) * 4) - 1)
        (List.range 8) (direct_read_uint_le (b0 :: b1 :: T) 2) 10 0 st = .ok st2) :
    nibble_unpack8 ops (b0 :: b1 :: T) st =
      if 2 + (((b1 >>> 4) + 1) * 4 * countOnes8 b0 + 7) / 8 ≤ (b0 :: b1 :: T).length then
        .ok (st2, (b0 :: b1 :: T).drop (2 + (((b1 >>> 4) + 1) * 4 * countOnes8 b0 + 7) / 8))
      else .panicked := by
  rw [nibble_unpack8_cons, if_neg hb0, hloop]

theorem nibble_unpack8_cons_ok2 {σ : Type} (ops : SinkOps σ) (b0 b1 : Nat) (T : List Nat)
    (st st2 : σ) (w sh tb mv : Nat) (hb0 : ¬ b0 = 0)
    (hwdef : ((b1 >>> 4) + 1) * 4 = w)
    (hshdef : (b1 &&& 15) * 4 = sh)
    (htbdef : 2 + (w * countOnes8 b0 + 7) / 8 = tb)
    (hmvdef : (if w ≥ 64 then 2 ^ 64 - 1 else 1 <<< w - 1) = mv)
    (hloop : unpack8Loop ops (b0 :: b1 :: T) b0 w sh tb mv
        (List.range 8) (direct_read_uint_le (b0 :: b1 :: T) 2) 10 0 st = .ok st2) :
    nibble_unpack8 ops (b0 :: b1 :: T) st =
      if tb ≤ (b0 :: b1 :: T).length then .ok (st2, (b0 :: b1 :: T).drop tb)
      else .panicked := by
  subst hwdef
  subst hshdef
  subst htbdef
  subst hmvdef
  exact nibble_unpack8_cons_ok ops b0 b1 T st st2 hb0 hloop

set_option maxHeartbeats 1600000 in
/-- One-group round trip: decoding an encoded group (followed by arbitrary
further bytes) feeds exactly the 8 original values to the sink, in order,
and returns the rest of the buffer. -/
theorem nibble_unpack8_roundtrip {σ : Type} (ops : SinkOps σ)
    (hp8 : ∀ st : σ, ops.process8 st 0 = (List.replicate 8 0).foldl ops.process st)
    (inputs rest : List Nat) (st : σ)
    (h8 : inputs.length = 8) (hlt : ∀ x ∈ inputs, x < 2 ^ 64) :
    nibble_unpack8 ops (nibble_pack8 inputs [] ++ rest) st =
      .ok (inputs.foldl ops.process st, rest) := by
  by_cases hm : nonzeroMask inputs = 0
  · -- all-zero group
    have hall : ∀ x ∈ inputs, x = 0 := by
      rw [nonzeroMask_eq_maskRec inputs h8] at hm
      exact (maskRec_eq_zero_iff inputs).mp hm
    have hrepl : inputs = List.replicate 8 0 := List.eq_replicate.mpr ⟨h8, hall⟩
    rw [nibble_pack8_zero inputs [] hm, List.nil_append, List.cons_append, List.nil_append,
      nibble_unpack8_zero_head, hp8 st, hrepl]
  · -- group with a nonzero value
    obtain ⟨hnn1, hnn16, htzn, hsum, hfits⟩ := encoderFacts inputs h8 hlt hm
    obtain ⟨hval, hhi, hlo⟩ := nibbleWord_eq inputs hnn1 hnn16 htzn
    have hw : 0 < numNibbles inputs * 4 := by omega
    have hw64 : numNibbles inputs * 4 ≤ 64 := by omega
    have hframe := nibble_pack8_norm inputs [] h8 hlt hm
    rw [List.nil_append] at hframe
    have hbodylen :
        (bytesLE (packNat (numNibbles inputs * 4)
            ((inputs.filter (· ≠ 0)).map (· >>> (trailingNibbles inputs * 4))))
          ((numNibbles inputs * 4 * (inputs.filter (· ≠ 0)).length + 7) / 8)).length =
        (numNibbles inputs * 4 * (inputs.filter (· ≠ 0)).length + 7) / 8 := bytesLE_length _ _
    have hvs : ∀ v ∈ (inputs.filter (· ≠ 0)).map (· >>> (trailingNibbles inputs * 4)),
        v < 2 ^ (numNibbles inputs * 4) := by
      intro v hv
      obtain ⟨x, hxmem, hxv⟩ := List.mem_map.mp hv
      have hxin : x ∈ inputs := List.mem_of_mem_filter hxmem
      have hxne : x ≠ 0 := by
        have := List.of_mem_filter hxmem
        simpa using this
      rw [← hxv]
      exact (hfits x hxin hxne).2
    have hPlt : packNat (numNibbles inputs * 4)
        ((inputs.filter (· ≠ 0)).map (· >>> (trailingNibbles inputs * 4))) <
        2 ^ (8 * ((numNibbles inputs * 4 * (inputs.filter (· ≠ 0)).length + 7) / 8)) := by
      have h1 : packNat (numNibbles inputs * 4)
          ((inputs.filter (· ≠ 0)).map (· >>> (trailingNibbles inputs * 4))) <
          2 ^ (numNibbles inputs * 4 * (inputs.filter (· ≠ 0)).length) := by
        have h2 := packNat_lt hvs
        rw [List.length_map] at h2
        exact h2
      exact lt_of_lt_of_le h1 (Nat.pow_le_pow_right (by norm_num) (by omega))
    have hRP : natOfBytes
        (bytesLE (packNat (numNibbles inputs * 4)
            ((inputs.filter (· ≠ 0)).map (· >>> (trailingNibbles inputs * 4))))
          ((numNibbles inputs * 4 * (inputs.filter (· ≠ 0)).length + 7) / 8) ++ rest) =
        packNat (numNibbles inputs * 4)
            ((inputs.filter (· ≠ 0)).map (· >>> (trailingNibbles inputs * 4))) +
          2 ^ (8 * ((numNibbles inputs * 4 * (inputs.filter (· ≠ 0)).length + 7) / 8)) *
            natOfBytes rest := by
      rw [natOfBytes_append, bytesLE_length, natOfBytes_bytesLE, Nat.mod_eq_of_lt hPlt]
    set R := natOfBytes
      (bytesLE (packNat (numNibbles inputs * 4)
          ((inputs.filter (· ≠ 0)).map (· >>> (trailingNibbles inputs * 4))))
        ((numNibbles inputs * 4 * (inputs.filter (· ≠ 0)).length + 7) / 8) ++ rest) with hRdef
    have hloop := unpack8Loop_ok ops
      (nonzeroMask inputs :: nibbleWord inputs ::
        (bytesLE (packNat (numNibbles inputs * 4)
            ((inputs.filter (· ≠ 0)).map (· >>> (trailingNibbles inputs * 4))))
          ((numNibbles inputs * 4 * (inputs.filter (· ≠ 0)).length + 7) / 8) ++ rest))
      (nonzeroMask inputs) (numNibbles inputs * 4) (trailingNibbles inputs * 4)
      ((numNibbles inputs * 4 * (inputs.filter (· ≠ 0)).length + 7) / 8) R hw hw64
      (by
        rw [List.length_cons, List.length_cons, List.length_append, hbodylen]
        omega)
      (fun k => by rw [read_shifted, hRdef])
      inputs 0 0
      (direct_read_uint_le
        (nonzeroMask inputs :: nibbleWord inputs ::
          (bytesLE (packNat (numNibbles inputs * 4)
              ((inputs.filter (· ≠ 0)).map (· >>> (trailingNibbles inputs * 4))))
            ((numNibbles inputs * 4 * (inputs.filter (· ≠ 0)).length + 7) / 8) ++ rest)) 2)
      10 0 st
      (by
        intro j hj
        rw [Nat.zero_add, and_one_shift_ne_zero, nonzeroMask_eq_maskRec inputs h8,
          maskRec_testBit]
        simp)
      (fun x hx hxz => ⟨(hfits x hx hxz).1, hlt x hx⟩)
      (by
        intro j hj
        rw [Nat.zero_add]
        have hextr : R / 2 ^ (numNibbles inputs * 4 * j) % 2 ^ (numNibbles inputs * 4) =
            packNat (numNibbles inputs * 4)
                ((inputs.filter (· ≠ 0)).map (· >>> (trailingNibbles inputs * 4))) /
              2 ^ (numNibbles inputs * 4 * j) % 2 ^ (numNibbles inputs * 4) := by
          rw [hRP]
          apply extract_congr
          have hmul : numNibbles inputs * 4 * (j + 1) ≤
              numNibbles inputs * 4 * (inputs.filter (· ≠ 0)).length :=
            Nat.mul_le_mul_left _ (by omega)
          have hexp : numNibbles inputs * 4 * (j + 1) =
              numNibbles inputs * 4 * j + numNibbles inputs * 4 := by ring
          omega
        rw [hextr, packNat_extract hvs j])
      (by
        rw [Nat.zero_add]
        omega)
      (by
        intro hne
        refine ⟨by omega, ?_, by omega⟩
        rw [read_first, ← hRdef]
        simp)
    rw [h8, ← List.range_eq_range'] at hloop
    rw [hframe, List.cons_append, List.cons_append]
    have hwd : ((nibbleWord inputs >>> 4) + 1) * 4 = numNibbles inputs * 4 := by
      rw [hhi]
      omega
    have hshd : (nibbleWord inputs &&& 15) * 4 = trailingNibbles inputs * 4 := by rw [hlo]
    have htbd : 2 + (numNibbles inputs * 4 * countOnes8 (nonzeroMask inputs) + 7) / 8 =
        2 + (numNibbles inputs * 4 * (inputs.filter (· ≠ 0)).length + 7) / 8 := by
      rw [countOnes8_nonzeroMask inputs h8]
    have hmvd : (if numNibbles inputs * 4 ≥ 64 then 2 ^ 64 - 1
        else 1 <<< (numNibbles inputs * 4) - 1) = 2 ^ (numNibbles inputs * 4) - 1 :=
      mval_eq _ hw64
    rw [nibble_unpack8_cons_ok2 ops (nonzeroMask inputs) (nibbleWord inputs) _ st
      (inputs.foldl ops.process st) (numNibbles inputs * 4) (trailingNibbles inputs * 4)
      (2 + (numNibbles inputs * 4 * (inputs.filter (· ≠ 0)).length + 7) / 8)
      (2 ^ (numNibbles inputs * 4) - 1) hm hwd hshd htbd hmvd hloop]
    rw [if_pos (by
      rw [List.length_cons, List.length_cons, List.length_append, hbodylen]
      omega)]
    rw [show (2 : Nat) + (numNibbles inputs * 4 * (inputs.filter (· ≠ 0)).length + 7) / 8 =
      ((numNibbles inputs * 4 * (inputs.filter (· ≠ 0)).length + 7) / 8 + 1) + 1 by ring,
      List.drop_succ_cons, List.drop_succ_cons, List.drop_left' hbodylen]

/-! Buffer-append properties of the encoders: all writes append at the end. -/

theorem pack_to_even_nibbles_append (inputs : List Nat) (nn tz : Nat) :
    ∀ buf : List Nat,
      pack_to_even_nibbles inputs buf nn tz = buf ++ pack_to_even_nibbles inputs [] nn tz := by
  induction inputs with
  | nil => intro buf; simp [pack_to_even_nibbles]
  | cons x xs ih =>
    intro buf
    rw [pack_to_even_nibbles, List.foldl_cons]
    rw [show pack_to_even_nibbles (x :: xs) [] nn tz =
      xs.foldl (fun b y =>
        if y ≠ 0 then direct_write_uint_le b (y >>> (tz * 4)) (nn / 2) else b)
        (if x ≠ 0 then direct_write_uint_le [] (x >>> (tz * 4)) (nn / 2) else []) from rfl]
    by_cases hx : x ≠ 0
    · rw [if_pos hx, if_pos hx]
      have h1 := ih (direct_write_uint_le buf (x >>> (tz * 4)) (nn / 2))
      have h2 := ih (direct_write_uint_le [] (x >>> (tz * 4)) (nn / 2))
      rw [pack_to_even_nibbles] at h1 h2
      rw [h1, h2, direct_write_uint_le, direct_write_uint_le, List.nil_append,
        List.append_assoc]
    · rw [if_neg hx, if_neg hx]
      have h1 := ih buf
      rw [pack_to_even_nibbles] at h1
      rw [h1, pack_to_even_nibbles]

theorem packUniversalLoop_append (nb s : Nat) :
    ∀ (xs : List Nat) (ow bc : Nat) (buf : List Nat),
      packUniversalLoop nb s xs ow bc buf =
        ((packUniversalLoop nb s xs ow bc []).1, (packUniversalLoop nb s xs ow bc []).2.1,
          buf ++ (packUniversalLoop nb s xs ow bc []).2.2) := by
  intro xs
  induction xs with
  | nil => intro ow bc buf; simp [packUniversalLoop]
  | cons x xs ih =>
    intro ow bc buf
    by_cases hx : x ≠ 0
    · rw [packUniversalLoop, if_pos hx]
      rw [show packUniversalLoop nb s (x :: xs) ow bc [] =
        (if x ≠ 0 then
          if 64 - bc ≤ nb then
            packUniversalLoop nb s xs
              (if 64 - bc < nb then (x >>> s) >>> (64 - bc) else 0) ((bc + nb) % 64)
              (direct_write_uint_le [] (ow ||| (x >>> s) <<< bc % 2 ^ 64) 8)
          else packUniversalLoop nb s xs (ow ||| (x >>> s) <<< bc % 2 ^ 64) ((bc + nb) % 64) []
        else packUniversalLoop nb s xs ow bc []) from rfl, if_pos hx]
      by_cases hr : 64 - bc ≤ nb
      · rw [if_pos hr, if_pos hr]
        rw [ih _ _ (direct_write_uint_le buf (ow ||| (x >>> s) <<< bc % 2 ^ 64) 8),
          ih _ _ (direct_write_uint_le [] (ow ||| (x >>> s) <<< bc % 2 ^ 64) 8)]
        rw [direct_write_uint_le, direct_write_uint_le, List.nil_append, List.append_assoc]
      · rw [if_neg hr, if_neg hr]
        rw [ih _ _ buf, ih _ _ ([] : List Nat), List.nil_append]
    · rw [packUniversalLoop, if_neg hx]
      rw [show packUniversalLoop nb s (x :: xs) ow bc [] =
        (if x ≠ 0 then
          if 64 - bc ≤ nb then
            packUniversalLoop nb s xs
              (if 64 - bc < nb then (x >>> s) >>> (64 - bc) else 0) ((bc + nb) % 64)
              (direct_write_uint_le [] (ow ||| (x >>> s) <<< bc % 2 ^ 64) 8)
          else packUniversalLoop nb s xs (ow ||| (x >>> s) <<< bc % 2 ^ 64) ((bc + nb) % 64) []
        else packUniversalLoop nb s xs ow bc []) from rfl, if_neg hx]
      rw [ih _ _ buf, ih _ _ ([] : List Nat), List.nil_append]

theorem pack_universal_append (inputs : List Nat) (nn tz : Nat) (buf : List Nat) :
    pack_universal inputs buf nn tz = buf ++ pack_universal inputs [] nn tz := by
  rcases hp : packUniversalLoop (nn * 4) (tz * 4) inputs 0 0 [] with ⟨A, B, C⟩
  have happ2 : packUniversalLoop (nn * 4) (tz * 4) inputs 0 0 buf = (A, B, buf ++ C) := by
    rw [packUniversalLoop_append (nn * 4) (tz * 4) inputs 0 0 buf, hp]
  rw [pack_universal, pack_universal, happ2, hp]
  show (if B > 0 then direct_write_uint_le (buf ++ C) A ((B + 7) / 8) else buf ++ C) =
    buf ++ (if B > 0 then direct_write_uint_le C A ((B + 7) / 8) else C)
  by_cases hz : B > 0
  · rw [if_pos hz, if_pos hz, direct_write_uint_le, direct_write_uint_le, List.append_assoc]
  · rw [if_neg hz, if_neg hz]

theorem nibble_pack8_append (inputs buf : List Nat) :
    nibble_pack8 inputs buf = buf ++ nibble_pack8 inputs [] := by
  rw [nibble_pack8, nibble_pack8]
  by_cases hm : nonzeroMask inputs ≠ 0
  · rw [if_pos hm, if_pos hm]
    by_cases hev : numNibbles inputs % 2 = 0
    · rw [if_pos hev, if_pos hev,
        pack_to_even_nibbles_append inputs (numNibbles inputs) (trailingNibbles inputs)
          (buf ++ [nonzeroMask inputs, nibbleWord inputs]),
        pack_to_even_nibbles_append inputs (numNibbles inputs) (trailingNibbles inputs)
          ([] ++ [nonzeroMask inputs, nibbleWord inputs]),
        List.nil_append, List.append_assoc]
    · rw [if_neg hev, if_neg hev,
        pack_universal_append inputs (numNibbles inputs) (trailingNibbles inputs) _,
        pack_universal_append inputs (numNibbles inputs) (trailingNibbles inputs)
          ([] ++ [nonzeroMask inputs, nibbleWord inputs]),
        List.nil_append, List.append_assoc]
  · rw [if_neg hm, if_neg hm, List.nil_append]

theorem pack_u64_append : ∀ (n : Nat) (stream : List Nat), stream.length ≤ n →
    ∀ buf : List Nat, pack_u64 stream buf = buf ++ pack_u64 stream [] := by
  intro n
  induction n with
  | zero =>
    intro stream h buf
    cases stream with
    | nil => simp [pack_u64]
    | cons x xs => simp at h
  | succ n ih =>
    intro stream h buf
    rcases stream with _ | ⟨x0, _ | ⟨x1, _ | ⟨x2, _ | ⟨x3, _ | ⟨x4, _ | ⟨x5, _ | ⟨x6, _ |
      ⟨x7, rest⟩⟩⟩⟩⟩⟩⟩⟩
    · simp [pack_u64]
    · exact nibble_pack8_append _ buf
    · exact nibble_pack8_append _ buf
    · exact nibble_pack8_append _ buf
    · exact nibble_pack8_append _ buf
    · exact nibble_pack8_append _ buf
    · exact nibble_pack8_append _ buf
    · exact nibble_pack8_append _ buf
    · show pack_u64 rest (nibble_pack8 [x0, x1, x2, x3, x4, x5, x6, x7] buf) =
        buf ++ pack_u64 rest (nibble_pack8 [x0, x1, x2, x3, x4, x5, x6, x7] [])
      have hlen : rest.length ≤ n := by
        simp [List.length_cons] at h
        omega
      rw [ih rest hlen (nibble_pack8 [x0, x1, x2, x3, x4, x5, x6, x7] buf),
        ih rest hlen (nibble_pack8 [x0, x1, x2, x3, x4, x5, x6, x7] []),
        nibble_pack8_append _ buf, List.append_assoc]

/-! Stream-level decode: `unpackGroups` equations and the main round trip. -/

theorem unpackGroups_zero {σ : Type} (ops : SinkOps σ) (buf : List Nat) (st : σ) :
    unpackGroups ops 0 buf st = .ok (st, buf) := rfl

theorem unpackGroups_succ_ok {σ : Type} (ops : SinkOps σ) (k : Nat) (buf buf2 : List Nat)
    (st st2 : σ) (h : nibble_unpack8 ops buf st = .ok (st2, buf2)) :
    unpackGroups ops (k + 1) buf st = unpackGroups ops k buf2 st2 := by
  rw [unpackGroups, h]

theorem unpackGroups_one_group {σ : Type} (ops : SinkOps σ)
    (hp8 : ∀ st : σ, ops.process8 st 0 = (List.replicate 8 0).foldl ops.process st)
    (chunk extra : List Nat) (st : σ) (h8 : chunk.length = 8)
    (hlt : ∀ x ∈ chunk, x < 2 ^ 64) :
    unpackGroups ops 1 (nibble_pack8 chunk [] ++ extra) st =
      .ok (chunk.foldl ops.process st, extra) := by
  rw [unpackGroups_succ_ok ops 0 _ extra st (chunk.foldl ops.process st)
    (nibble_unpack8_roundtrip ops hp8 chunk extra st h8 hlt)]
  rfl

theorem unpackGroups_pack_u64 {σ : Type} (ops : SinkOps σ)
    (hp8 : ∀ st : σ, ops.process8 st 0 = (List.replicate 8 0).foldl ops.process st) :
    ∀ (k : Nat) (stream extra : List Nat) (st : σ), (stream.length + 7) / 8 = k →
      (∀ x ∈ stream, x < 2 ^ 64) →
      unpackGroups ops k (pack_u64 stream [] ++ extra) st =
        .ok ((stream ++ List.replicate ((8 - stream.length % 8) % 8) 0).foldl ops.process st,
          extra) := by
  intro k
  induction k with
  | zero =>
    intro stream extra st hk hlt
    have hnil : stream = [] := by
      cases stream with
      | nil => rfl
      | cons x xs => exfalso; simp [List.length_cons] at hk; omega
    subst hnil
    simp [pack_u64, unpackGroups_zero]
  | succ k ih =>
    intro stream extra st hk hlt
    rcases stream with _ | ⟨x0, _ | ⟨x1, _ | ⟨x2, _ | ⟨x3, _ | ⟨x4, _ | ⟨x5, _ | ⟨x6, _ |
      ⟨x7, rest⟩⟩⟩⟩⟩⟩⟩⟩
    · exfalso; simp at hk
    · have hk1 : k = 0 := by norm_num at hk; omega
      subst hk1
      exact unpackGroups_one_group ops hp8 _ extra st (by simp)
        (by
          intro x hx
          rcases List.mem_append.mp hx with h1 | h1
          · exact hlt x h1
          · rw [List.eq_of_mem_replicate h1]; norm_num)
    · have hk1 : k = 0 := by norm_num at hk; omega
      subst hk1
      exact unpackGroups_one_group ops hp8 _ extra st (by simp)
        (by
          intro x hx
          rcases List.mem_append.mp hx with h1 | h1
          · exact hlt x h1
          · rw [List.eq_of_mem_replicate h1]; norm_num)
    · have hk1 : k = 0 := by norm_num at hk; omega
      subst hk1
      exact unpackGroups_one_group ops hp8 _ extra st (by simp)
        (by
          intro x hx
          rcases List.mem_append.mp hx with h1 | h1
          · exact hlt x h1
          · rw [List.eq_of_mem_replicate h1]; norm_num)
    · have hk1 : k = 0 := by norm_num at hk; omega
      subst hk1
      exact unpackGroups_one_group ops hp8 _ extra st (by simp)
        (by
          intro x hx
          rcases List.mem_append.mp hx with h1 | h1
          · exact hlt x h1
          · rw [List.eq_of_mem_replicate h1]; norm_num)
    · have hk1 : k = 0 := by norm_num at hk; omega
      subst hk1
      exact unpackGroups_one_group ops hp8 _ extra st (by simp)
        (by
          intro x hx
          rcases List.mem_append.mp hx with h1 | h1
          · exact hlt x h1
          · rw [List.eq_of_mem_replicate h1]; norm_num)
    · have hk1 : k = 0 := by norm_num at hk; omega
      subst hk1
      exact unpackGroups_one_group ops hp8 _ extra st (by simp)
        (by
          intro x hx
          rcases List.mem_append.mp hx with h1 | h1
          · exact hlt x h1
          · rw [List.eq_of_mem_replicate h1]; norm_num)
    · have hk1 : k = 0 := by norm_num at hk; omega
      subst hk1
      exact unpackGroups_one_group ops hp8 _ extra st (by simp)
        (by
          intro x hx
          rcases List.mem_append.mp hx with h1 | h1
          · exact hlt x h1
          · rw [List.eq_of_mem_replicate h1]; norm_num)
    · -- full group followed by the rest of the stream
      have hpk : pack_u64 (x0 :: x1 :: x2 :: x3 :: x4 :: x5 :: x6 :: x7 :: rest) [] =
          nibble_pack8 [x0, x1, x2, x3, x4, x5, x6, x7] [] ++ pack_u64 rest [] := by
        show pack_u64 rest (nibble_pack8 [x0, x1, x2, x3, x4, x5, x6, x7] []) = _
        exact pack_u64_append rest.length rest le_rfl _
      have hltc : ∀ x ∈ [x0, x1, x2, x3, x4, x5, x6, x7], x < 2 ^ 64 := by
        intro x hx
        apply hlt
        simp only [List.mem_cons] at hx ⊢
        tauto
      have hltr : ∀ x ∈ rest, x < 2 ^ 64 := by
        intro x hx
        apply hlt
        simp only [List.mem_cons]
        tauto
      have hkr : (rest.length + 7) / 8 = k := by
        simp [List.length_cons] at hk
        omega
      rw [hpk, List.append_assoc,
        unpackGroups_succ_ok ops k _ (pack_u64 rest [] ++ extra) st
          ([x0, x1, x2, x3, x4, x5, x6, x7].foldl ops.process st)
          (nibble_unpack8_roundtrip ops hp8 [x0, x1, x2, x3, x4, x5, x6, x7]
            (pack_u64 rest [] ++ extra) st rfl hltc),
        ih rest extra _ hkr hltr]
      have hmod : (8 - (x0 :: x1 :: x2 :: x3 :: x4 :: x5 :: x6 :: x7 :: rest).length % 8) % 8 =
          (8 - rest.length % 8) % 8 := by
        simp [List.length_cons]
        omega
      rw [hmod]
      have hshape : (x0 :: x1 :: x2 :: x3 :: x4 :: x5 :: x6 :: x7 :: rest) ++
          List.replicate ((8 - rest.length % 8) % 8) 0 =
          [x0, x1, x2, x3, x4, x5, x6, x7] ++
            (rest ++ List.replicate ((8 - rest.length % 8) % 8) 0) := by
        simp
      rw [hshape, List.foldl_append]
      rw [List.foldl_append, List.foldl_append]

/-! Sink fold characterizations. -/

theorem longSink_foldl (l : List Nat) : ∀ v : List Nat,
    l.foldl longSinkOps.process { vec := v } = { vec := v ++ l } := by
  induction l with
  | nil => intro v; simp
  | cons x xs ih =>
    intro v
    rw [List.foldl_cons]
    have hstep : longSinkOps.process { vec := v } x = { vec := v ++ [x] } := rfl
    rw [hstep, ih (v ++ [x])]
    simp

theorem longSink_hp8 : ∀ st : LongSink,
    longSinkOps.process8 st 0 = (List.replicate 8 0).foldl longSinkOps.process st := by
  intro st
  obtain ⟨v⟩ := st
  rw [longSink_foldl (List.replicate 8 0) v]
  rfl

theorem deltaSink_foldl_deltas : ∀ (values : List Nat) (last : Nat) (v0 : List Nat),
    List.Chain (· ≤ ·) last values → (∀ x ∈ values, x < 2 ^ 64) →
    (deltasFrom last values).foldl deltaSinkOps.process
        { acc := last, sink := { vec := v0 } } =
      { acc := values.getLastD last, sink := { vec := v0 ++ values } } := by
  intro values
  induction values with
  | nil => intro last v0 _ _; simp [deltasFrom]
  | cons n rest ih =>
    intro last v0 hch hlt
    rw [deltasFrom, List.foldl_cons]
    have hle : last ≤ n := (List.chain_cons.mp hch).1
    have hn : n < 2 ^ 64 := hlt n (by simp)
    have hstep : deltaSinkOps.process { acc := last, sink := { vec := v0 } } (n - last) =
        { acc := n, sink := { vec := v0 ++ [n] } } := by
      simp only [deltaSinkOps]
      rw [Nat.add_sub_cancel' hle, Nat.mod_eq_of_lt hn]
    rw [hstep, ih n (v0 ++ [n]) (List.chain_cons.mp hch).2 (fun x hx => hlt x (by simp [hx]))]
    rw [List.getLastD_cons]
    simp

theorem deltaSink_foldl_zeros : ∀ (k a : Nat) (v : List Nat), a < 2 ^ 64 →
    (List.replicate k 0).foldl deltaSinkOps.process { acc := a, sink := { vec := v } } =
      { acc := a, sink := { vec := v ++ List.replicate k a } } := by
  intro k
  induction k with
  | zero => intro a v _; simp
  | succ k ih =>
    intro a v ha
    rw [List.replicate_succ, List.foldl_cons]
    have hstep : deltaSinkOps.process { acc := a, sink := { vec := v } } 0 =
        { acc := a, sink := { vec := v ++ [a] } } := by
      simp only [deltaSinkOps]
      rw [Nat.add_zero, Nat.mod_eq_of_lt ha]
    rw [hstep, ih a (v ++ [a]) ha, List.replicate_succ]
    simp

theorem deltaSink_hp8 : ∀ st : DeltaSink,
    deltaSinkOps.process8 st 0 = (List.replicate 8 0).foldl deltaSinkOps.process st := by
  intro st
  obtain ⟨a, ⟨v⟩⟩ := st
  rw [show (List.replicate 8 0 : List Nat) = 0 :: List.replicate 7 0 from rfl, List.foldl_cons]
  have hstep : deltaSinkOps.process { acc := a, sink := { vec := v } } 0 =
      { acc := a % 2 ^ 64, sink := { vec := v ++ [a % 2 ^ 64] } } := by
    simp only [deltaSinkOps]
    rw [Nat.add_zero]
  rw [hstep, deltaSink_foldl_zeros 7 (a % 2 ^ 64) _ (Nat.mod_lt _ (by norm_num))]
  simp only [deltaSinkOps, Nat.add_zero]
  rw [show (List.replicate 8 (a % 2 ^ 64) : List Nat) =
    a % 2 ^ 64 :: List.replicate 7 (a % 2 ^ 64) from rfl]
  simp

theorem xorSink_foldl_deltas : ∀ (rest : List Nat) (prev : Nat) (v0 : List Nat),
    (xorDeltasFrom prev rest).foldl doubleXorSinkOps.process { last := prev, vec := v0 } =
      { last := rest.getLastD prev, vec := v0 ++ rest } := by
  intro rest
  induction rest with
  | nil => intro prev v0; simp [xorDeltasFrom]
  | cons f fs ih =>
    intro prev v0
    rw [xorDeltasFrom, List.foldl_cons]
    have hcancel : prev ^^^ (prev ^^^ f) = f := by
      rw [← Nat.xor_assoc, Nat.xor_self, Nat.zero_xor]
    have hstep : doubleXorSinkOps.process { last := prev, vec := v0 } (prev ^^^ f) =
        { last := f, vec := v0 ++ [f] } := by
      simp only [doubleXorSinkOps]
      rw [hcancel]
    rw [hstep, ih f (v0 ++ [f]), List.getLastD_cons]
    simp

theorem xorSink_foldl_zeros : ∀ (k l : Nat) (v : List Nat),
    (List.replicate k 0).foldl doubleXorSinkOps.process { last := l, vec := v } =
      { last := l, vec := v ++ List.replicate k l } := by
  intro k
  induction k with
  | zero => intro l v; simp
  | succ k ih =>
    intro l v
    rw [List.replicate_succ, List.foldl_cons]
    have hstep : doubleXorSinkOps.process { last := l, vec := v } 0 =
        { last := l, vec := v ++ [l] } := by
      simp only [doubleXorSinkOps]
      rw [Nat.xor_zero]
    rw [hstep, ih l (v ++ [l]), List.replicate_succ]
    simp

theorem xorSink_hp8 : ∀ st : DoubleXorSink,
    doubleXorSinkOps.process8 st 0 = (List.replicate 8 0).foldl doubleXorSinkOps.process st := by
  intro st
  obtain ⟨l, v⟩ := st
  rw [xorSink_foldl_zeros 8 l v]
  simp only [doubleXorSinkOps, Nat.xor_zero]

/-! Helper facts about the delta and XOR streams. -/

theorem deltasFrom_length : ∀ (last : Nat) (values : List Nat),
    (deltasFrom last values).length = values.length := by
  intro last values
  induction values generalizing last with
  | nil => rfl
  | cons n rest ih => rw [deltasFrom, List.length_cons, List.length_cons, ih n]

theorem deltasFrom_lt : ∀ (last : Nat) (values : List Nat), (∀ x ∈ values, x < 2 ^ 64) →
    ∀ d ∈ deltasFrom last values, d < 2 ^ 64 := by
  intro last values
  induction values generalizing last with
  | nil => intro _ d hd; simp [deltasFrom] at hd
  | cons n rest ih =>
    intro hlt d hd
    rw [deltasFrom, List.mem_cons] at hd
    rcases hd with h1 | h1
    · subst h1
      exact lt_of_le_of_lt (Nat.sub_le n last) (hlt n (by simp))
    · exact ih n (fun x hx => hlt x (by simp [hx])) d h1

theorem xorDeltasFrom_length : ∀ (last : Nat) (values : List Nat),
    (xorDeltasFrom last values).length = values.length := by
  intro last values
  induction values generalizing last with
  | nil => rfl
  | cons n rest ih => rw [xorDeltasFrom, List.length_cons, List.length_cons, ih n]

theorem xorDeltasFrom_lt : ∀ (last : Nat) (values : List Nat), last < 2 ^ 64 →
    (∀ x ∈ values, x < 2 ^ 64) → ∀ d ∈ xorDeltasFrom last values, d < 2 ^ 64 := by
  intro last values
  induction values generalizing last with
  | nil => intro _ _ d hd; simp [xorDeltasFrom] at hd
  | cons n rest ih =>
    intro hl hlt d hd
    rw [xorDeltasFrom, List.mem_cons] at hd
    rcases hd with h1 | h1
    · subst h1
      exact Nat.xor_lt_two_pow hl (hlt n (by simp))
    · exact ih n (hlt n (by simp)) (fun x hx => hlt x (by simp [hx])) d h1

theorem getLastD_lt (values : List Nat) : ∀ last : Nat, last < 2 ^ 64 →
    (∀ x ∈ values, x < 2 ^ 64) → values.getLastD last < 2 ^ 64 := by
  induction values with
  | nil => intro last hl _; exact hl
  | cons n rest ih =>
    intro last hl hlt
    rw [List.getLastD_cons]
    exact ih n (hlt n (by simp)) (fun x hx => hlt x (by simp [hx]))

/-- C1: packing any list of `u64` values with `pack_u64` (the final partial
group zero-padded to 8) and decoding with `unpack` into a `LongSink` with
count `values.length` succeeds, consumes the whole buffer, and produces a
vector whose first `values.length` entries are the original values and whose
remaining entries are all zero. -/
theorem c1_plain_roundtrip (values : List Nat) (hlt : ∀ x ∈ values, x < 2 ^ 64) :
    unpack longSinkOps (pack_u64 values []) { vec := [] } values.length =
      .ok ({ vec := values ++ List.replicate ((8 - values.length % 8) % 8) 0 }, []) ∧
    (values ++ List.replicate ((8 - values.length % 8) % 8) 0).take values.length = values ∧
    ∀ y ∈ (values ++ List.replicate ((8 - values.length % 8) % 8) 0).drop values.length,
      y = 0 := by
  refine ⟨?_, ?_, ?_⟩
  · rw [unpack]
    have hmain := unpackGroups_pack_u64 longSinkOps longSink_hp8 ((values.length + 7) / 8)
      values [] { vec := [] } rfl hlt
    rw [List.append_nil] at hmain
    rw [hmain, longSink_foldl]
    rw [List.nil_append]
  · exact List.take_left' rfl
  · intro y hy
    rw [List.drop_left' rfl] at hy
    exact List.eq_of_mem_replicate hy

/-- C1 witness. -/
theorem c1_plain_roundtrip_witness :
    unpack longSinkOps (pack_u64 [1, 2, 3, 4, 5] []) { vec := [] } 5 =
      .ok ({ vec := [1, 2, 3, 4, 5] ++ List.replicate ((8 - 5 % 8) % 8) 0 }, []) ∧
    ([1, 2, 3, 4, 5] ++ List.replicate ((8 - 5 % 8) % 8) 0).take 5 = [1, 2, 3, 4, 5] ∧
    ∀ y ∈ ([1, 2, 3, 4, 5] ++ List.replicate ((8 - 5 % 8) % 8) 0).drop 5, y = 0 := by
  have h := c1_plain_roundtrip [1, 2, 3, 4, 5] (by decide)
  exact h

/-- C4: for a non-decreasing list of `u64` values, encoding with
`pack_u64_delta` and decoding with `unpack` into a fresh `DeltaSink` with
count `values.length` succeeds, and the sink's output vector starts with
exactly the original values. -/
theorem c4_delta_roundtrip (values : List Nat) (hmono : List.Chain' (· ≤ ·) values)
    (hlt : ∀ x ∈ values, x < 2 ^ 64) :
    unpack deltaSinkOps (pack_u64_delta values []) { acc := 0, sink := { vec := [] } }
        values.length =
      .ok ({ acc := values.getLastD 0,
             sink := { vec := values ++
               List.replicate ((8 - values.length % 8) % 8) (values.getLastD 0) } }, []) ∧
    (values ++ List.replicate ((8 - values.length % 8) % 8) (values.getLastD 0)).take
      values.length = values := by
  have hch : List.Chain (· ≤ ·) 0 values := by
    cases values with
    | nil => exact List.Chain.nil
    | cons v vs => exact List.Chain.cons (Nat.zero_le v) hmono
  have hdlt := deltasFrom_lt 0 values hlt
  have hdlen := deltasFrom_length 0 values
  constructor
  · rw [unpack, pack_u64_delta]
    have hmain := unpackGroups_pack_u64 deltaSinkOps deltaSink_hp8
      ((values.length + 7) / 8) (deltasFrom 0 values) [] { acc := 0, sink := { vec := [] } }
      (by rw [hdlen]) hdlt
    rw [List.append_nil] at hmain
    rw [hmain, List.foldl_append, deltaSink_foldl_deltas values 0 [] hch hlt, List.nil_append,
      hdlen, deltaSink_foldl_zeros _ _ _ (getLastD_lt values 0 (by norm_num) hlt)]
  · exact List.take_left' rfl

/-- C4 witness. -/
theorem c4_delta_roundtrip_witness :
    unpack deltaSinkOps (pack_u64_delta [3, 3, 7, 100] []) { acc := 0, sink := { vec := [] } }
        4 =
      .ok ({ acc := [3, 3, 7, 100].getLastD 0,
             sink := { vec := [3, 3, 7, 100] ++
               List.replicate ((8 - [3, 3, 7, 100].length % 8) % 8) ([3, 3, 7, 100].getLastD 0) } }, []) ∧
    ([3, 3, 7, 100] ++ List.replicate ((8 - [3, 3, 7, 100].length % 8) % 8)
      ([3, 3, 7, 100].getLastD 0)).take [3, 3, 7, 100].length = [3, 3, 7, 100] := by
  exact c4_delta_roundtrip [3, 3, 7, 100] (by norm_num [List.chain'_cons]) (by decide)

/-- C3: for a non-empty list of `f64` bit patterns, `pack_f64_xor` succeeds
and decoding its output with `unpack_f64_xor` into a `DoubleXorSink` with
count `values.length` succeeds, reproducing the original bit patterns
exactly as the first `values.length` entries of the sink's vector. -/
theorem c3_xor_f64_roundtrip (values : List Nat) (hne : values ≠ [])
    (hlt : ∀ x ∈ values, x < 2 ^ 64) :
    ∃ buf : List Nat, pack_f64_xor values [] = .ok buf ∧
    ∃ final : DoubleXorSink,
      unpack_f64_xor buf { last := 0, vec := [] } values.length = .ok (final, []) ∧
      final.vec.take values.length = values := by
  rcases values with _ | ⟨v, rest⟩
  · exact absurd rfl hne
  have hv : v < 2 ^ 64 := hlt v (by simp)
  have hrlt : ∀ x ∈ rest, x < 2 ^ 64 := fun x hx => hlt x (by simp [hx])
  have hdlt := xorDeltasFrom_lt v rest hv hrlt
  have hdlen := xorDeltasFrom_length v rest
  refine ⟨pack_u64 (xorDeltasFrom v rest) (direct_write_uint_le [] v 8), by rw [pack_f64_xor],
    ?_⟩
  rw [direct_write_uint_le, List.nil_append,
    pack_u64_append (xorDeltasFrom v rest).length _ le_rfl (bytesLE v 8)]
  rw [unpack_f64_xor]
  rw [if_neg (by
    rw [List.length_append, bytesLE_length]
    omega)]
  rw [if_neg (by simp)]
  have hread : direct_read_uint_le
      (bytesLE v 8 ++ pack_u64 (xorDeltasFrom v rest) []) 0 = v := by
    rw [direct_read_uint_le, List.drop_zero, List.take_left' (bytesLE_length v 8),
      natOfBytes_bytesLE]
    exact Nat.mod_eq_of_lt (lt_of_lt_of_le hv (by norm_num))
  rw [List.drop_left' (bytesLE_length v 8), hread]
  rw [DoubleXorSink.reset]
  rw [unpack]
  have hmain := unpackGroups_pack_u64 doubleXorSinkOps xorSink_hp8
    ((rest.length + 7) / 8) (xorDeltasFrom v rest) [] { last := v, vec := [v] }
    (by rw [hdlen]) hdlt
  rw [List.append_nil] at hmain
  rw [show (v :: rest).length - 1 = rest.length from rfl, hmain, List.foldl_append,
    xorSink_foldl_deltas rest v [v], hdlen, xorSink_foldl_zeros]
  refine ⟨_, rfl, ?_⟩
  show (([v] ++ rest) ++ List.replicate ((8 - rest.length % 8) % 8) (rest.getLastD v)).take
    (v :: rest).length = v :: rest
  rw [List.singleton_append]
  exact List.take_left' rfl

/-- C3 witness. -/
theorem c3_xor_f64_roundtrip_witness :
    ∃ buf : List Nat, pack_f64_xor [4598175219545276416, 4612811918334230528] [] = .ok buf ∧
    ∃ final : DoubleXorSink,
      unpack_f64_xor buf { last := 0, vec := [] } 2 = .ok (final, []) ∧
      final.vec.take 2 = [4598175219545276416, 4612811918334230528] := by
  exact c3_xor_f64_roundtrip [4598175219545276416, 4612811918334230528] (by decide) (by decide)

/-! Characterizations of the delta and XOR predictor streams. -/

theorem deltasFrom_zipWith : ∀ (last : Nat) (values : List Nat),
    deltasFrom last values = List.zipWith (fun n p => n - p) values (last :: values) := by
  intro last values
  induction values generalizing last with
  | nil => rfl
  | cons n rest ih => rw [deltasFrom, List.zipWith_cons_cons, ih n]

theorem xorDeltasFrom_zipWith : ∀ (last : Nat) (values : List Nat),
    xorDeltasFrom last values = List.zipWith (fun f p => p ^^^ f) values (last :: values) := by
  intro last values
  induction values generalizing last with
  | nil => rfl
  | cons f rest ih => rw [xorDeltasFrom, List.zipWith_cons_cons, ih f]

theorem deltasFrom_clamp : ∀ (values : List Nat) (last i : Nat), i + 1 < values.length →
    values.getD (i + 1) 0 < values.getD i 0 → (deltasFrom last values).getD (i + 1) 0 = 0 := by
  intro values
  induction values with
  | nil => intro last i h _; simp at h
  | cons n rest ih =>
    intro last i h hdec
    rw [deltasFrom, List.getD_cons_succ]
    cases i with
    | zero =>
      rcases rest with _ | ⟨m, rest2⟩
      · simp at h
      · rw [deltasFrom, List.getD_cons_zero]
        rw [List.getD_cons_succ, List.getD_cons_zero, List.getD_cons_zero] at hdec
        exact Nat.sub_eq_zero_of_le (le_of_lt hdec)
    | succ j =>
      rw [List.getD_cons_succ, List.getD_cons_succ] at hdec
      exact ih n j (by simp at h; omega) hdec

/-- C7: `pack_u64_delta` feeds `pack_u64` the stream of saturating
differences against the running predecessor (seeded with 0); whenever an
input is strictly below its predecessor, the emitted delta at that position
is exactly zero. -/
theorem c7_delta_clamping (inputs buf : List Nat) :
    pack_u64_delta inputs buf = pack_u64 (deltasFrom 0 inputs) buf ∧
    deltasFrom 0 inputs = List.zipWith (fun n p => n - p) inputs (0 :: inputs) ∧
    ∀ i, i + 1 < inputs.length → inputs.getD (i + 1) 0 < inputs.getD i 0 →
      (deltasFrom 0 inputs).getD (i + 1) 0 = 0 :=
  ⟨rfl, deltasFrom_zipWith 0 inputs, fun i h hdec => deltasFrom_clamp inputs 0 i h hdec⟩

/-- C7 witness. -/
theorem c7_delta_clamping_witness :
    (deltasFrom 0 [5, 3]).getD 1 0 = 0 ∧
    pack_u64_delta [5, 3] [] = pack_u64 (deltasFrom 0 [5, 3]) [] :=
  ⟨(c7_delta_clamping [5, 3] []).2.2 0 (by decide) (by decide), (c7_delta_clamping [5, 3] []).1⟩

/-- C8: `pack_f64_xor` fails with `InputTooShort` exactly on an empty
stream; on `v :: rest` it returns `Ok`, appending first the 8 little-endian
bytes of `v`'s bit pattern and then the `pack_u64` packing of each later
value XORed with its predecessor's raw bit pattern. -/
theorem c8_xor_encoder_contract (stream buf : List Nat) :
    (pack_f64_xor stream buf = .error .InputTooShort ↔ stream = []) ∧
    ∀ v rest, stream = v :: rest →
      pack_f64_xor stream buf =
        .ok (pack_u64 (List.zipWith (fun f p => p ^^^ f) rest (v :: rest))
          (buf ++ bytesLE v 8)) := by
  constructor
  · cases stream with
    | nil => simp [pack_f64_xor]
    | cons v rest => simp [pack_f64_xor]
  · intro v rest h
    subst h
    rw [pack_f64_xor, direct_write_uint_le, xorDeltasFrom_zipWith]

/-- C8 witness. -/
theorem c8_xor_encoder_contract_witness :
    pack_f64_xor [7, 5] [] =
      .ok (pack_u64 (List.zipWith (fun f p => p ^^^ f) [5] [7, 5]) ([] ++ bytesLE 7 8)) :=
  (c8_xor_encoder_contract [7, 5] []).2 7 [5] rfl

/-- C10: once a `DeltaDiffPackSink` has processed as many values as it has
buckets (`i = last_hist_deltas.len()`), a further `process` call changes
nothing: every field, including the output byte vector, is left as is. -/
theorem c10_deltadiff_saturation (s : DeltaDiffPackSink) (v : Nat)
    (h : s.i = s.last_hist_deltas.length) :
    s.process v = s := by
  rw [DeltaDiffPackSink.process, if_neg (by omega)]

/-- C10 witness. -/
theorem c10_deltadiff_saturation_witness :
    DeltaDiffPackSink.process
      { value_dropped := false, i := 2, last_hist_deltas := [4, 9],
        pack_array := [1, 2, 3, 4, 5, 6, 7, 8], out_vec := [3] } 42 =
      { value_dropped := false, i := 2, last_hist_deltas := [4, 9],
        pack_array := [1, 2, 3, 4, 5, 6, 7, 8], out_vec := [3] } :=
  c10_deltadiff_saturation
    { value_dropped := false, i := 2, last_hist_deltas := [4, 9],
      pack_array := [1, 2, 3, 4, 5, 6, 7, 8], out_vec := [3] } 42 (by decide)

/-- C2 (refuted by the code): the 6-byte buffer packing eight `1`s,
truncated to its first 3 bytes, makes the decoder panic — the final
`&inbuf[total_bytes..]` slice in `nibble_unpack8` is out of bounds — rather
than return `Ok` or `Err(InputTooShort)`. -/
theorem c2_truncation_panics :
    pack_u64 (List.replicate 8 1) [] = [255, 0, 17, 17, 17, 17] ∧
    (pack_u64 (List.replicate 8 1) []).take 3 = [255, 0, 17] ∧
    unpack longSinkOps ((pack_u64 (List.replicate 8 1) []).take 3) { vec := [] } 8 =
      .panicked := by
  refine ⟨by decide, by decide, by decide⟩

/-- C9 (refuted by the code): `unpack` panics on an empty input when values
are still expected (`inbuf[0]` out of bounds), and `unpack_f64_xor` panics
when `num_values = 0` (`assert!(num_values >= 1)`), so the decoders are not
panic-free. -/
theorem c9_decoder_panics :
    unpack longSinkOps [] { vec := [] } 1 = .panicked ∧
    unpack_f64_xor (List.replicate 8 255) { last := 0, vec := [] } 0 = .panicked := by
  refine ⟨by decide, by decide⟩
